import Mathlib

/-!
# Verification of the LAVA entropy-oracle backend

A shallow embedding, in Lean 4, of the deterministic core of the
LAVA entropy oracle (TypeScript sources: `src/entropy.ts`,
`src/snapshot.ts`, `src/memoCommit.ts`, `src/solana.ts`, and the
tick orchestration in `src/api/encryptionWorkflow.ts`).

JavaScript strings are modelled as Lean `String` (logically a list of
`Char`), and every string operation the code performs (`split("|")`,
`startsWith`, `slice`, `join`, `parseInt`, `toLowerCase`, `includes`,
template interpolation of numbers) is defined here explicitly over
`String.data` so that all proofs are elementary list inductions and all
definitions evaluate inside the kernel.

The SHA3-256 primitive comes from Node's `crypto` library (it is not
code of this repository); it is therefore treated as an arbitrary
function, passed to the embedded code as an explicit parameter
`h : String → String` (and `hb : List Nat → String` for the byte-level
hash used by the snapshot fallback).  Every property proved below holds
for all choices of the hash function.
-/

namespace Lava

/-! ## Character and string order

JS compares strings code-unit-wise (`Array.prototype.sort` default
comparator, and `localeCompare` which the code uses on base58 pubkeys);
for the ASCII data handled here both coincide with the scalar-value
lexicographic order defined below. -/

/-- Lexicographic order on lists of characters, by unicode scalar value. -/
def charsLe : List Char → List Char → Bool
  | [], _ => true
  | _ :: _, [] => false
  | a :: as, b :: bs =>
    if a < b then true
    else if b < a then false
    else charsLe as bs

/-- String comparison as performed by the JS runtime. -/
def strLe (a b : String) : Bool := charsLe a.data b.data

theorem charsLe_total : ∀ a b : List Char, charsLe a b = true ∨ charsLe b a = true := by
  intro a
  induction a with
  | nil => intro b; left; rfl
  | cons x xs ih =>
    intro b
    cases b with
    | nil => right; rfl
    | cons y ys =>
      by_cases hxy : x < y
      · left; simp [charsLe, hxy]
      · by_cases hyx : y < x
        · right; simp [charsLe, hyx, hxy]
        · rcases ih ys with h | h
          · left; simp [charsLe, hxy, hyx, h]
          · right; simp [charsLe, hxy, hyx, h]

theorem charsLe_trans : ∀ a b c : List Char,
    charsLe a b = true → charsLe b c = true → charsLe a c = true := by
  intro a
  induction a with
  | nil => intro b c _ _; rfl
  | cons x xs ih =>
    intro b c hab hbc
    cases b with
    | nil => simp [charsLe] at hab
    | cons y ys =>
      cases c with
      | nil => simp [charsLe] at hbc
      | cons z zs =>
        simp only [charsLe] at hab hbc ⊢
        by_cases hxy : x < y
        · -- x < y and y ≤ z gives x < z
          by_cases hyz : y < z
          · have hxz : x < z := lt_trans hxy hyz
            simp [hxz]
          · by_cases hzy : z < y
            · simp [hyz, hzy] at hbc
            · have hyez : y = z := le_antisymm (not_lt.mp hzy) (not_lt.mp hyz)
              subst hyez
              simp [hxy]
        · by_cases hyx : y < x
          · simp [hxy, hyx] at hab
          · have hxey : x = y := le_antisymm (not_lt.mp hyx) (not_lt.mp hxy)
            subst hxey
            by_cases hxz : x < z
            · simp [hxz]
            · by_cases hzx : z < x
              · simp [hxz, hzx] at hbc
              · simp [hxz, hzx] at hab hbc ⊢
                exact ih ys zs hab hbc

theorem charsLe_antisymm : ∀ a b : List Char,
    charsLe a b = true → charsLe b a = true → a = b := by
  intro a
  induction a with
  | nil =>
    intro b _ hba
    cases b with
    | nil => rfl
    | cons y ys => simp [charsLe] at hba
  | cons x xs ih =>
    intro b hab hba
    cases b with
    | nil => simp [charsLe] at hab
    | cons y ys =>
      simp only [charsLe] at hab hba
      by_cases hxy : x < y
      · simp [hxy, lt_asymm hxy] at hba
      · by_cases hyx : y < x
        · simp [hxy, hyx] at hab
        · have hxey : x = y := le_antisymm (not_lt.mp hyx) (not_lt.mp hxy)
          subst hxey
          simp [hxy] at hab hba
          rw [ih ys hab hba]

theorem strLe_total (a b : String) : strLe a b = true ∨ strLe b a = true :=
  charsLe_total a.data b.data

theorem strLe_trans {a b c : String} (hab : strLe a b = true) (hbc : strLe b c = true) :
    strLe a c = true :=
  charsLe_trans a.data b.data c.data hab hbc

theorem strLe_antisymm {a b : String} (hab : strLe a b = true) (hba : strLe b a = true) :
    a = b := by
  cases a with
  | mk da =>
    cases b with
    | mk db =>
      have := charsLe_antisymm da db hab hba
      simp [this]

/-! ## Stable insertion sort

`Array.prototype.sort` (ES2019+) is a stable sort driven by a
user-supplied comparator.  We embed it as a stable insertion sort over a
Bool-valued `le` comparator: `sortB` processes the list right-to-left,
inserting each earlier element *before* any equal later element, which
is exactly the stable behaviour. -/

/-- Insert `a` before the first element `b` with `le a b`. -/
def insertB (le : α → α → Bool) (a : α) : List α → List α
  | [] => [a]
  | b :: bs => if le a b then a :: b :: bs else b :: insertB le a bs

/-- Stable sort by the comparator `le` (the embedding of JS `sort`). -/
def sortB (le : α → α → Bool) : List α → List α
  | [] => []
  | a :: as => insertB le a (sortB le as)

theorem insertB_perm (le : α → α → Bool) (a : α) :
    ∀ l : List α, List.Perm (insertB le a l) (a :: l) := by
  intro l
  induction l with
  | nil => exact List.Perm.refl [a]
  | cons b bs ih =>
    by_cases h : le a b = true
    · simp [insertB, h]
    · simp only [insertB, h, if_false]
      exact (List.Perm.cons b ih).trans (List.Perm.swap a b bs)

theorem sortB_perm (le : α → α → Bool) : ∀ l : List α, List.Perm (sortB le l) l := by
  intro l
  induction l with
  | nil => exact List.Perm.refl []
  | cons a as ih =>
    exact (insertB_perm le a (sortB le as)).trans (List.Perm.cons a ih)

theorem sortB_length (le : α → α → Bool) (l : List α) : (sortB le l).length = l.length :=
  (sortB_perm le l).length_eq

theorem mem_sortB (le : α → α → Bool) {a : α} {l : List α} (h : a ∈ sortB le l) : a ∈ l :=
  (sortB_perm le l).mem_iff.mp h

/-- Sortedness with respect to a Bool comparator. -/
def SortedB (le : α → α → Bool) (l : List α) : Prop :=
  List.Pairwise (fun a b => le a b = true) l

instance (le : α → α → Bool) (l : List α) : Decidable (SortedB le l) :=
  inferInstanceAs (Decidable (List.Pairwise _ l))

theorem insertB_pairwise (le : α → α → Bool)
    (htotal : ∀ a b, le a b = true ∨ le b a = true)
    (htrans : ∀ a b c, le a b = true → le b c = true → le a c = true)
    (a : α) : ∀ l : List α, SortedB le l → SortedB le (insertB le a l) := by
  intro l
  induction l with
  | nil => intro _; simp [insertB, SortedB]
  | cons b bs ih =>
    intro hs
    have hb : ∀ x ∈ bs, le b x = true := fun x hx => (List.pairwise_cons.mp hs).1 x hx
    have hbs : SortedB le bs := (List.pairwise_cons.mp hs).2
    by_cases h : le a b = true
    · simp only [insertB, h, if_true]
      refine List.pairwise_cons.mpr ⟨?_, hs⟩
      intro x hx
      rcases List.mem_cons.mp hx with rfl | hx'
      · exact h
      · exact htrans a b x h (hb x hx')
    · simp only [insertB, h, if_false]
      refine List.pairwise_cons.mpr ⟨?_, ih hbs⟩
      intro x hx
      have hba : le b a = true := (htotal a b).resolve_left h
      have hx' : x ∈ a :: bs := (insertB_perm le a bs).mem_iff.mp hx
      rcases List.mem_cons.mp hx' with rfl | hx''
      · exact hba
      · exact hb x hx''

theorem sortB_pairwise (le : α → α → Bool)
    (htotal : ∀ a b, le a b = true ∨ le b a = true)
    (htrans : ∀ a b c, le a b = true → le b c = true → le a c = true) :
    ∀ l : List α, SortedB le (sortB le l) := by
  intro l
  induction l with
  | nil => simp [sortB, SortedB]
  | cons a as ih => exact insertB_pairwise le htotal htrans a (sortB le as) ih

/-- Sorting an already sorted list leaves it unchanged. -/
theorem sortB_eq_self (le : α → α → Bool) :
    ∀ l : List α, SortedB le l → sortB le l = l := by
  intro l
  induction l with
  | nil => intro _; rfl
  | cons a as ih =>
    intro hs
    have has : SortedB le as := (List.pairwise_cons.mp hs).2
    have h1 : sortB le (a :: as) = insertB le a as := by
      simp [sortB, ih has]
    rw [h1]
    cases as with
    | nil => rfl
    | cons b bs =>
      have hab : le a b = true := (List.pairwise_cons.mp hs).1 b (by simp)
      simp [insertB, hab]

theorem sortB_idem (le : α → α → Bool)
    (htotal : ∀ a b, le a b = true ∨ le b a = true)
    (htrans : ∀ a b c, le a b = true → le b c = true → le a c = true)
    (l : List α) : sortB le (sortB le l) = sortB le l :=
  sortB_eq_self le (sortB le l) (sortB_pairwise le htotal htrans l)

theorem insertB_map (le : α → α → Bool) (le' : β → β → Bool) (f : α → β)
    (hf : ∀ a b, le' (f a) (f b) = le a b) (a : α) :
    ∀ l : List α, (insertB le a l).map f = insertB le' (f a) (l.map f) := by
  intro l
  induction l with
  | nil => rfl
  | cons b bs ih =>
    by_cases h : le a b = true
    · simp [insertB, h, hf]
    · simp [insertB, h, hf, ih]

/-- Sorting commutes with mapping a comparator-preserving function. -/
theorem sortB_map (le : α → α → Bool) (le' : β → β → Bool) (f : α → β)
    (hf : ∀ a b, le' (f a) (f b) = le a b) :
    ∀ l : List α, (sortB le l).map f = sortB le' (l.map f) := by
  intro l
  induction l with
  | nil => rfl
  | cons a as ih =>
    simp only [sortB, List.map_cons]
    rw [insertB_map le le' f hf, ih]

/-- Two sorted permutations of each other are equal, as soon as the
comparator is antisymmetric on the members of the list. -/
theorem eq_of_perm_of_sortedB (le : α → α → Bool) :
    ∀ l₁ l₂ : List α, List.Perm l₁ l₂ → SortedB le l₁ → SortedB le l₂ →
      (∀ a ∈ l₁, ∀ b ∈ l₁, le a b = true → le b a = true → a = b) → l₁ = l₂ := by
  intro l₁
  induction l₁ with
  | nil =>
    intro l₂ hperm _ _ _
    exact hperm.nil_eq
  | cons a t₁ ih =>
    intro l₂ hperm hs₁ hs₂ hanti
    cases l₂ with
    | nil => exact absurd hperm.symm.nil_eq (by simp)
    | cons b t₂ =>
      have hb₁ : b ∈ a :: t₁ := hperm.symm.mem_iff.mp (by simp)
      have ha₂ : a ∈ b :: t₂ := hperm.mem_iff.mp (by simp)
      have hab : a = b := by
        rcases List.mem_cons.mp hb₁ with h | hbt₁
        · exact h.symm
        · rcases List.mem_cons.mp ha₂ with h | hat₂
          · exact h
          · have h1 : le a b = true := (List.pairwise_cons.mp hs₁).1 b hbt₁
            have h2 : le b a = true := (List.pairwise_cons.mp hs₂).1 a hat₂
            exact hanti a (by simp) b (by exact List.mem_cons_of_mem a hbt₁) h1 h2
      subst hab
      have htail : List.Perm t₁ t₂ := hperm.cons_inv
      have ht₁ : SortedB le t₁ := (List.pairwise_cons.mp hs₁).2
      have ht₂ : SortedB le t₂ := (List.pairwise_cons.mp hs₂).2
      have hanti' : ∀ x ∈ t₁, ∀ y ∈ t₁, le x y = true → le y x = true → x = y :=
        fun x hx y hy => hanti x (List.mem_cons_of_mem a hx) y (List.mem_cons_of_mem a hy)
      rw [ih t₂ htail ht₁ ht₂ hanti']

/-- Sorting is invariant under permutation of the input, given member
antisymmetry of the comparator. -/
theorem sortB_eq_of_perm (le : α → α → Bool)
    (htotal : ∀ a b, le a b = true ∨ le b a = true)
    (htrans : ∀ a b c, le a b = true → le b c = true → le a c = true)
    {l₁ l₂ : List α} (hperm : List.Perm l₁ l₂)
    (hanti : ∀ a ∈ l₁, ∀ b ∈ l₁, le a b = true → le b a = true → a = b) :
    sortB le l₁ = sortB le l₂ := by
  refine eq_of_perm_of_sortedB le (sortB le l₁) (sortB le l₂) ?_
    (sortB_pairwise le htotal htrans l₁) (sortB_pairwise le htotal htrans l₂) ?_
  · exact (sortB_perm le l₁).trans (hperm.trans (sortB_perm le l₂).symm)
  · intro a ha b hb
    exact hanti a (mem_sortB le ha) b (mem_sortB le hb)

/-! ## Decimal rendering and parsing

JS template interpolation `${n}` renders numbers in decimal;
`parseInt(s, 10)` skips leading whitespace, reads an optional sign and
then the longest digit prefix (yielding NaN when there is none).  Both
are defined here from scratch so that they compute by kernel reduction
and their round-trip can be proved. -/

/-- The decimal digit characters. -/
def digitToChar (d : Nat) : Char :=
  match d with
  | 0 => '0' | 1 => '1' | 2 => '2' | 3 => '3' | 4 => '4'
  | 5 => '5' | 6 => '6' | 7 => '7' | 8 => '8' | _ => '9'

def charToDigit (c : Char) : Nat := c.toNat - 48

/-- Big-endian decimal digits of `n` (fuel-driven so it is structural). -/
def natToCharsAux : Nat → Nat → List Char
  | 0, _ => []
  | _ + 1, 0 => []
  | fuel + 1, n + 1 => natToCharsAux fuel ((n + 1) / 10) ++ [digitToChar ((n + 1) % 10)]

/-- Decimal rendering of a natural number, as JS `${n}` produces it. -/
def natToChars (n : Nat) : List Char :=
  if n = 0 then ['0'] else natToCharsAux n n

def natToString (n : Nat) : String := ⟨natToChars n⟩

/-- Decimal rendering of an integer (used for `JSON.stringify` of the
integer-valued numbers appearing in this code base). -/
def intToString : Int → String
  | Int.ofNat n => natToString n
  | Int.negSucc n => ⟨'-' :: natToChars (n + 1)⟩

/-- Fold a list of digit characters into a number, most significant first. -/
def digitsVal (cs : List Char) : Nat :=
  cs.foldl (fun acc c => acc * 10 + charToDigit c) 0

def isWhitespaceChar (c : Char) : Bool :=
  c = ' ' || c = '\t' || c = '\n' || c = '\r'

/-- Optional sign handling of JS `parseInt`. -/
def parseSign : List Char → Int × List Char
  | '-' :: r => (-1, r)
  | '+' :: r => (1, r)
  | r => (1, r)

/-- The embedding of JS `parseInt(s, 10)`: `none` models `NaN`. -/
def parseIntJS (s : String) : Option Int :=
  let cs := s.data.dropWhile isWhitespaceChar
  let signRest := parseSign cs
  let ds := signRest.2.takeWhile Char.isDigit
  if ds.isEmpty then none
  else some (signRest.1 * (digitsVal ds : Int))

theorem digitToChar_isDigit {d : Nat} (h : d < 10) : (digitToChar d).isDigit = true := by
  interval_cases d <;> decide

theorem charToDigit_digitToChar {d : Nat} (h : d < 10) : charToDigit (digitToChar d) = d := by
  interval_cases d <;> decide

theorem digitToChar_not_pipe {d : Nat} (h : d < 10) : digitToChar d ≠ '|' := by
  interval_cases d <;> decide

theorem natToCharsAux_digits : ∀ fuel n, n ≤ fuel →
    ∀ c ∈ natToCharsAux fuel n, c.isDigit = true := by
  intro fuel
  induction fuel with
  | zero => intro n _ c hc; simp [natToCharsAux] at hc
  | succ f ih =>
    intro n hn c hc
    cases n with
    | zero => simp [natToCharsAux] at hc
    | succ m =>
      have hdiv : (m + 1) / 10 ≤ f := by
        have h1 : (m + 1) / 10 < m + 1 := Nat.div_lt_self (by omega) (by omega)
        omega
      simp only [natToCharsAux, List.mem_append, List.mem_singleton] at hc
      rcases hc with hc | hc
      · exact ih ((m + 1) / 10) hdiv c hc
      · subst hc
        exact digitToChar_isDigit (Nat.mod_lt _ (by omega))

theorem digitsVal_append_digit (cs : List Char) (c : Char) :
    digitsVal (cs ++ [c]) = digitsVal cs * 10 + charToDigit c := by
  simp [digitsVal, List.foldl_append]

theorem digitsVal_natToCharsAux : ∀ fuel n, n ≤ fuel →
    ∀ acc, (natToCharsAux fuel n).foldl (fun a c => a * 10 + charToDigit c) acc
      = acc * 10 ^ (natToCharsAux fuel n).length + n := by
  intro fuel
  induction fuel with
  | zero =>
    intro n hn acc
    interval_cases n
    simp [natToCharsAux]
  | succ f ih =>
    intro n hn acc
    cases n with
    | zero => simp [natToCharsAux]
    | succ m =>
      have hdiv : (m + 1) / 10 ≤ f := by
        have h1 : (m + 1) / 10 < m + 1 := Nat.div_lt_self (by omega) (by omega)
        omega
      simp only [natToCharsAux, List.foldl_append, List.foldl_cons, List.foldl_nil,
        List.length_append, List.length_singleton]
      rw [ih ((m + 1) / 10) hdiv acc]
      rw [charToDigit_digitToChar (Nat.mod_lt _ (by omega : (0:Nat) < 10))]
      have hdm : 10 * ((m + 1) / 10) + (m + 1) % 10 = m + 1 := Nat.div_add_mod (m + 1) 10
      ring_nf
      omega

theorem digitsVal_natToChars (n : Nat) : digitsVal (natToChars n) = n := by
  by_cases h : n = 0
  · subst h; decide
  · have := digitsVal_natToCharsAux n n (le_refl n) 0
    simp only [natToChars, h, if_false, digitsVal]
    simpa [digitsVal] using this

theorem natToChars_digits (n : Nat) : ∀ c ∈ natToChars n, c.isDigit = true := by
  by_cases h : n = 0
  · subst h; decide
  · simp only [natToChars, h, if_false]
    exact natToCharsAux_digits n n (le_refl n)

theorem natToChars_ne_nil (n : Nat) : natToChars n ≠ [] := by
  by_cases h : n = 0
  · subst h; decide
  · simp only [natToChars, h, if_false]
    intro hcontra
    have := digitsVal_natToCharsAux n n (le_refl n) 0
    rw [hcontra] at this
    simp [digitsVal] at this
    omega

theorem isDigit_not_pipe {c : Char} (h : c.isDigit = true) : c ≠ '|' := by
  intro hc; subst hc; simp at h

theorem isDigit_not_whitespace {c : Char} (h : c.isDigit = true) : isWhitespaceChar c = false := by
  cases hiw : isWhitespaceChar c
  · rfl
  · have hw' : c = ' ' ∨ c = '\t' ∨ c = '\n' ∨ c = '\r' := by
      simp only [isWhitespaceChar, Bool.or_eq_true, decide_eq_true_eq] at hiw
      tauto
    rcases hw' with rfl | rfl | rfl | rfl <;> exact absurd h (by decide)

theorem isDigit_not_sign {c : Char} (h : c.isDigit = true) : c ≠ '-' ∧ c ≠ '+' := by
  constructor <;> (intro hc; subst hc; exact absurd h (by decide))

theorem parseSign_of_not_sign {c : Char} (h1 : c ≠ '-') (h2 : c ≠ '+') (cs : List Char) :
    parseSign (c :: cs) = (1, c :: cs) := by
  unfold parseSign
  split
  · rename_i heq
    injection heq with hc _
    exact absurd hc h1
  · rename_i heq
    injection heq with hc _
    exact absurd hc h2
  · rfl

/-- `parseInt` inverts decimal rendering of a natural number. -/
theorem parseIntJS_natToString (n : Nat) : parseIntJS (natToString n) = some n := by
  have hd := natToChars_digits n
  have hne := natToChars_ne_nil n
  simp only [parseIntJS, natToString]
  cases hcs : natToChars n with
  | nil => exact absurd hcs hne
  | cons c cs =>
    have hcd : c.isDigit = true := hd c (by rw [hcs]; simp)
    have hnw : isWhitespaceChar c = false := isDigit_not_whitespace hcd
    have hns := isDigit_not_sign hcd
    have hdrop : (c :: cs).dropWhile isWhitespaceChar = c :: cs := by
      simp [List.dropWhile_cons, hnw]
    have htake : (c :: cs).takeWhile Char.isDigit = c :: cs := by
      rw [List.takeWhile_eq_self_iff]
      intro x hx
      exact hd x (by rw [hcs]; exact hx)
    rw [hdrop, parseSign_of_not_sign hns.1 hns.2]
    simp only [htake, List.isEmpty_cons, if_false]
    have : digitsVal (c :: cs) = n := by rw [← hcs]; exact digitsVal_natToChars n
    simp [this]

/-! ## Splitting and joining on the `"|"` delimiter

Embeddings of JS `memo.split("|")` and `array.join("|")` (the separator
used throughout the code is the single character `|`). -/

/-- `split` on a single character, exactly as JS `String.split`:
`"".split("|") = [""]`, separators at the ends produce empty pieces. -/
def splitPipe : List Char → List (List Char)
  | [] => [[]]
  | c :: cs =>
    if c = '|' then [] :: splitPipe cs
    else
      match splitPipe cs with
      | [] => [[c]]
      | r :: rs => (c :: r) :: rs

/-- `join` with a single-character separator (JS `Array.join`). -/
def interSep (sep : Char) : List (List Char) → List Char
  | [] => []
  | [s] => s
  | s :: rest => s ++ sep :: interSep sep rest

/-- String-level `join("|")`. -/
def joinPipeS (l : List String) : String := ⟨interSep '|' (l.map String.data)⟩

theorem splitPipe_ne_nil : ∀ cs : List Char, splitPipe cs ≠ [] := by
  intro cs
  induction cs with
  | nil => simp [splitPipe]
  | cons c cs ih =>
    by_cases h : c = '|'
    · simp [splitPipe, h]
    · simp only [splitPipe, h, if_false]
      cases hs : splitPipe cs with
      | nil => simp
      | cons r rs => simp

theorem splitPipe_no_pipe : ∀ cs : List Char, (∀ c ∈ cs, c ≠ '|') → splitPipe cs = [cs] := by
  intro cs
  induction cs with
  | nil => intro _; rfl
  | cons c cs ih =>
    intro h
    have hc : c ≠ '|' := h c (by simp)
    have hcs : splitPipe cs = [cs] := ih (fun x hx => h x (by simp [hx]))
    simp [splitPipe, hc, hcs]

theorem splitPipe_append_pipe (xs ys : List Char) (hxs : ∀ c ∈ xs, c ≠ '|') :
    splitPipe (xs ++ '|' :: ys) = xs :: splitPipe ys := by
  induction xs with
  | nil => simp [splitPipe]
  | cons x xs ih =>
    have hx : x ≠ '|' := hxs x (by simp)
    have h2 := ih (fun c hc => hxs c (by simp [hc]))
    simp only [List.cons_append, splitPipe, hx, if_false]
    rw [show xs.append ('|' :: ys) = xs ++ '|' :: ys from rfl, h2]

/-- Splitting inverts joining when no piece contains the separator. -/
theorem splitPipe_interSep : ∀ parts : List (List Char), parts ≠ [] →
    (∀ p ∈ parts, ∀ c ∈ p, c ≠ '|') → splitPipe (interSep '|' parts) = parts := by
  intro parts
  induction parts with
  | nil => intro h _; exact absurd rfl h
  | cons p rest ih =>
    intro _ hnp
    cases rest with
    | nil =>
      simp only [interSep]
      exact splitPipe_no_pipe p (hnp p (by simp))
    | cons q rest' =>
      have hstep : interSep '|' (p :: q :: rest') = p ++ '|' :: interSep '|' (q :: rest') := rfl
      rw [hstep, splitPipe_append_pipe p _ (hnp p (by simp))]
      rw [ih (by simp) (fun r hr c hc => hnp r (by simp [hr]) c hc)]

/-! ## Prefix test, slice, substring search, lower-casing -/

/-- JS `String.startsWith`, on character lists. -/
def isPreB : List Char → List Char → Bool
  | [], _ => true
  | _ :: _, [] => false
  | p :: ps, c :: cs => if p = c then isPreB ps cs else false

theorem isPreB_append (p v : List Char) : isPreB p (p ++ v) = true := by
  induction p with
  | nil => rfl
  | cons c cs ih => simp [isPreB, ih]

/-- If neither of `p`, `q` is a prefix of the other, then `p` is not a
prefix of any extension of `q` either. -/
theorem isPreB_append_false : ∀ p q v : List Char,
    isPreB p q = false → isPreB q p = false → isPreB p (q ++ v) = false := by
  intro p
  induction p with
  | nil => intro q v hpq _; simp [isPreB] at hpq
  | cons a as ih =>
    intro q v hpq hqp
    cases q with
    | nil => simp [isPreB] at hqp
    | cons b bs =>
      by_cases hab : a = b
      · subst hab
        simp only [isPreB, if_pos rfl] at hpq hqp
        simp only [List.cons_append, isPreB, if_pos rfl]
        exact ih bs v hpq hqp
      · simp [List.cons_append, isPreB, hab]

/-- JS `s.slice(n)` at the character level. -/
def sliceFrom (n : Nat) (cs : List Char) : List Char := cs.drop n

theorem sliceFrom_key (k v : List Char) : sliceFrom (k.length + 1) (k ++ '=' :: v) = v := by
  have h : (k ++ '=' :: v).drop (k ++ ['=']).length = v := by
    have hdl := List.drop_left (k ++ ['=']) v
    simp at hdl
    simp [hdl]
  simp only [sliceFrom]
  have hlen : (k ++ ['=']).length = k.length + 1 := by simp
  rw [← hlen]
  exact h

/-- JS `String.includes`, on character lists. -/
def containsSub : List Char → List Char → Bool
  | hay, need =>
    isPreB need hay ||
      match hay with
      | [] => false
      | _ :: t => containsSub t need

/-- String-level `includes`. -/
def containsSubS (hay need : String) : Bool := containsSub hay.data need.data

/-- JS `String.toLowerCase` (ASCII-faithful). -/
def toLowerStr (s : String) : String := ⟨s.data.map Char.toLower⟩

/-! ## The JSON value model and `stableStringify` (src/entropy.ts)

`stableStringify` / `innerStringify` serialize a JS value: primitives by
`JSON.stringify`, arrays in order, objects with keys sorted
lexicographically at every nesting level.  JS runtime values are
modelled by `JsonValue`; an object is an association list of fields in
runtime insertion order (JS objects have no duplicate keys, which we do
not need to assume). -/

inductive JsonValue where
  | null
  | bool (b : Bool)
  | num (n : Int)
  | str (s : String)
  | arr (items : List JsonValue)
  | obj (fields : List (String × JsonValue))
deriving Inhabited

/-- Lower-case hex digit. -/
def hexChar (n : Nat) : Char :=
  match n with
  | 0 => '0' | 1 => '1' | 2 => '2' | 3 => '3' | 4 => '4' | 5 => '5' | 6 => '6'
  | 7 => '7' | 8 => '8' | 9 => '9' | 10 => 'a' | 11 => 'b' | 12 => 'c'
  | 13 => 'd' | 14 => 'e' | _ => 'f'

/-- `JSON.stringify` escaping of a single character. -/
def escapeChar (c : Char) : List Char :=
  if c = '"' then ['\\', '"']
  else if c = '\\' then ['\\', '\\']
  else if c = '\n' then ['\\', 'n']
  else if c = '\r' then ['\\', 'r']
  else if c = '\t' then ['\\', 't']
  else if c = '\x08' then ['\\', 'b']
  else if c = '\x0c' then ['\\', 'f']
  else if c.toNat < 32 then
    ['\\', 'u', '0', '0', hexChar (c.toNat / 16), hexChar (c.toNat % 16)]
  else [c]

/-- `JSON.stringify` of a string value. -/
def jsonQuote (s : String) : String :=
  ⟨'"' :: (s.data.map escapeChar).flatten ++ ['"']⟩

/-- Key order on rendered fields and on raw fields. -/
def pairKeyLe (p q : String × String) : Bool := strLe p.1 q.1

def pairKeyLeJ (p q : String × JsonValue) : Bool := strLe p.1 q.1

/-- Render one sorted field as `"key":value`. -/
def renderPair (p : String × String) : List Char :=
  (jsonQuote p.1).data ++ ':' :: p.2.data

mutual

/-- `innerStringify` from src/entropy.ts.  The source sorts the keys of
an object and then serializes each value; here each field value is
serialized first (to keep the recursion structural) and the rendered
fields are then key-sorted — the two agree because the sort is stable
and leaves keys untouched, see `innerStringify_obj`. -/
def innerStringify : JsonValue → String
  | .null => "null"
  | .bool true => "true"
  | .bool false => "false"
  | .num n => intToString n
  | .str s => jsonQuote s
  | .arr items => ⟨'[' :: interSep ',' (stringifyList items) ++ [']']⟩
  | .obj fields =>
      ⟨'{' :: interSep ',' ((sortB pairKeyLe (stringifyFields fields)).map renderPair) ++ ['}']⟩

def stringifyList : List JsonValue → List (List Char)
  | [] => []
  | v :: vs => (innerStringify v).data :: stringifyList vs

def stringifyFields : List (String × JsonValue) → List (String × String)
  | [] => []
  | p :: rest => (p.1, innerStringify p.2) :: stringifyFields rest

end

/-- `stableStringify` from src/entropy.ts (it just calls `innerStringify`;
`undefined` at the top level is subsumed by `null` in this model). -/
def stableStringify (value : JsonValue) : String := innerStringify value

mutual

/-- Recursively key-sort every object of a JSON value.  Two values have
the same `sortJson` normal form exactly when they are the same logical
object up to key insertion order at every nesting level. -/
def sortJson : JsonValue → JsonValue
  | .null => .null
  | .bool b => .bool b
  | .num n => .num n
  | .str s => .str s
  | .arr items => .arr (sortJsonList items)
  | .obj fields => .obj (sortB pairKeyLeJ (sortJsonFields fields))

def sortJsonList : List JsonValue → List JsonValue
  | [] => []
  | v :: vs => sortJson v :: sortJsonList vs

def sortJsonFields : List (String × JsonValue) → List (String × JsonValue)
  | [] => []
  | p :: rest => (p.1, sortJson p.2) :: sortJsonFields rest

end

theorem stringifyFields_eq_map (l : List (String × JsonValue)) :
    stringifyFields l = l.map (fun p => (p.1, innerStringify p.2)) := by
  induction l with
  | nil => rfl
  | cons p rest ih => simp [stringifyFields, ih]

theorem sortJsonFields_eq_map (l : List (String × JsonValue)) :
    sortJsonFields l = l.map (fun p => (p.1, sortJson p.2)) := by
  induction l with
  | nil => rfl
  | cons p rest ih => simp [sortJsonFields, ih]

/-- The object case of `innerStringify`, stated in the operation order
of the source (sort the fields by key, then render each value). -/
theorem innerStringify_obj (fields : List (String × JsonValue)) :
    innerStringify (.obj fields)
      = ⟨'{' :: interSep ','
          ((sortB pairKeyLeJ fields).map
            (fun p => (jsonQuote p.1).data ++ ':' :: (innerStringify p.2).data)) ++ ['}']⟩ := by
  have hsm : (sortB pairKeyLeJ fields).map (fun p => (p.1, innerStringify p.2))
      = sortB pairKeyLe (fields.map (fun p => (p.1, innerStringify p.2))) :=
    sortB_map pairKeyLeJ pairKeyLe (fun p => (p.1, innerStringify p.2)) (fun _ _ => rfl) fields
  simp only [innerStringify, stringifyFields_eq_map, ← hsm, List.map_map]
  rfl

/-- Membership-based induction principle for the nested inductive
`JsonValue`. -/
theorem JsonValue.indMem (P : JsonValue → Prop)
    (hnull : P .null) (hbool : ∀ b, P (.bool b)) (hnum : ∀ n, P (.num n))
    (hstr : ∀ s, P (.str s))
    (harr : ∀ items, (∀ v ∈ items, P v) → P (.arr items))
    (hobj : ∀ fields, (∀ p ∈ fields, P p.2) → P (.obj fields)) :
    ∀ v, P v := by
  have H : ∀ n (v : JsonValue), sizeOf v ≤ n → P v := by
    intro n
    induction n with
    | zero =>
      intro v hv
      cases v <;> simp_arith at hv
    | succ n ih =>
      intro v hv
      cases v with
      | null => exact hnull
      | bool b => exact hbool b
      | num m => exact hnum m
      | str s => exact hstr s
      | arr items =>
        refine harr items (fun x hx => ih x ?_)
        have h1 : sizeOf x < sizeOf items := List.sizeOf_lt_of_mem hx
        have h2 : sizeOf (JsonValue.arr items) = 1 + sizeOf items := by simp
        omega
      | obj fields =>
        refine hobj fields (fun p hp => ih p.2 ?_)
        have h1 : sizeOf p < sizeOf fields := List.sizeOf_lt_of_mem hp
        have h2 : sizeOf (JsonValue.obj fields) = 1 + sizeOf fields := by simp
        have h3 : sizeOf p.2 < sizeOf p := by
          cases p with
          | mk a b => simp_arith
        omega
  exact fun v => H (sizeOf v) v (le_refl _)

theorem stringifyList_sortJsonList (items : List JsonValue)
    (ih : ∀ v ∈ items, innerStringify (sortJson v) = innerStringify v) :
    stringifyList (sortJsonList items) = stringifyList items := by
  induction items with
  | nil => rfl
  | cons v vs ihl =>
    simp only [sortJsonList, stringifyList]
    rw [ih v (by simp), ihl (fun x hx => ih x (by simp [hx]))]

theorem pairKeyLeJ_total : ∀ a b : String × JsonValue,
    pairKeyLeJ a b = true ∨ pairKeyLeJ b a = true :=
  fun a b => strLe_total a.1 b.1

theorem pairKeyLeJ_trans : ∀ a b c : String × JsonValue,
    pairKeyLeJ a b = true → pairKeyLeJ b c = true → pairKeyLeJ a c = true :=
  fun _ _ _ hab hbc => strLe_trans hab hbc

/-- Serialization is invariant under recursive key-sorting: the
serialized form only depends on the key-sorted normal form. -/
theorem innerStringify_sortJson : ∀ v : JsonValue,
    innerStringify (sortJson v) = innerStringify v := by
  refine JsonValue.indMem _ rfl (fun b => by cases b <;> rfl) (fun _ => rfl) (fun _ => rfl) ?_ ?_
  · intro items ihm
    simp only [sortJson, innerStringify]
    rw [stringifyList_sortJsonList items ihm]
  · intro fields ihm
    have hLHS : sortJson (JsonValue.obj fields)
        = JsonValue.obj (sortB pairKeyLeJ (sortJsonFields fields)) := rfl
    rw [hLHS, innerStringify_obj, innerStringify_obj]
    have hidem : sortB pairKeyLeJ (sortB pairKeyLeJ (sortJsonFields fields))
        = sortB pairKeyLeJ (sortJsonFields fields) :=
      sortB_idem pairKeyLeJ pairKeyLeJ_total pairKeyLeJ_trans _
    have hmap : sortB pairKeyLeJ (sortJsonFields fields)
        = (sortB pairKeyLeJ fields).map (fun p => (p.1, sortJson p.2)) := by
      rw [sortJsonFields_eq_map]
      exact (sortB_map pairKeyLeJ pairKeyLeJ (fun p => (p.1, sortJson p.2))
        (fun _ _ => rfl) fields).symm
    rw [hidem, hmap, List.map_map]
    congr 1
    congr 1
    congr 1
    congr 1
    apply List.map_congr_left
    intro p hp
    have hpmem : p ∈ fields := mem_sortB pairKeyLeJ hp
    simp only [Function.comp]
    rw [ihm p hpmem]

/-! ## Token account state and chain snapshot (src/snapshot.ts types) -/

/-- Canonical state for a single token account (parsed path). -/
structure TokenAccountState where
  token_account_pubkey : String
  owner : String
  mint : String
  amount : String
  decimals : Option Int
  program : String
deriving DecidableEq

/-- Fallback state when parsed info is unavailable. -/
structure TokenAccountStateFallback where
  token_account_pubkey : String
  raw_data_hash : String
  error : String
deriving DecidableEq

/-- `TokenState = TokenAccountState | TokenAccountStateFallback`. -/
inductive TokenState where
  | parsed (s : TokenAccountState)
  | fallback (f : TokenAccountStateFallback)
deriving DecidableEq

/-- The `token_account_pubkey` field, present in both shapes. -/
def TokenState.key : TokenState → String
  | .parsed s => s.token_account_pubkey
  | .fallback f => f.token_account_pubkey

/-- `isTokenStateFallback` from src/entropy.ts (the `"raw_data_hash" in
state` discrimination of the TS union, structural in this model). -/
def isTokenStateFallbackB : TokenState → Bool
  | .parsed _ => false
  | .fallback _ => true

/-- The runtime JS object for a token state, fields in the insertion
order used by `fetchTokenState` / `fallback` in src/snapshot.ts. -/
def TokenState.toJson : TokenState → JsonValue
  | .parsed s => .obj
      [ ("token_account_pubkey", .str s.token_account_pubkey)
      , ("owner", .str s.owner)
      , ("mint", .str s.mint)
      , ("amount", .str s.amount)
      , ("decimals", match s.decimals with | some d => .num d | none => .null)
      , ("program", .str s.program) ]
  | .fallback f => .obj
      [ ("token_account_pubkey", .str f.token_account_pubkey)
      , ("raw_data_hash", .str f.raw_data_hash)
      , ("error", .str f.error) ]

structure ChainSnapshot where
  slot : Nat
  blockhash : String
  token_states : List TokenState
deriving DecidableEq

/-! ## Entropy derivation (src/entropy.ts) -/

structure EntropyResult where
  tokens_state_hash : String
  docs_hash : String
  entropy_seed : String
  canonical_tokens_json : String
  doc_count : Nat
deriving DecidableEq

/-- The comparator `(a, b) => a.token_account_pubkey.localeCompare(b.token_account_pubkey)`. -/
def tokenLe (a b : TokenState) : Bool := strLe a.key b.key

/-- The full effect of one call of `computeEntropy` (src/entropy.ts):
the returned `EntropyResult` together with the final contents of the two
argument arrays.  The source copies `token_states` before sorting
(`[...snapshot.token_states].sort(...)`) but sorts `documentIds` in
place (`documentIds.sort()`), so the caller's `documentIds` array is in
sorted order after the call. -/
structure EntropyCallResult where
  result : EntropyResult
  token_states_after : List TokenState
  documentIds_after : List String
deriving DecidableEq

def computeEntropyCall (h : String → String) (snapshot : ChainSnapshot)
    (documentIds : List String) : EntropyCallResult :=
  -- 1. Sort token states by pubkey (on a copy of the array)
  let sorted := sortB tokenLe snapshot.token_states
  -- 2./3. Stable-stringify the sorted array and hash it
  let canonical_tokens_json := stableStringify (.arr (sorted.map TokenState.toJson))
  let tokens_state_hash := h canonical_tokens_json
  -- 4. Sort the document ids (in place!) and hash them joined by "|"
  let sortedIds := sortB strLe documentIds
  let docs_canonical := joinPipeS sortedIds
  let docs_hash := h docs_canonical
  -- 5. Combine everything and derive the final seed
  let combined := tokens_state_hash ++ "|" ++ docs_hash ++ "|"
      ++ natToString snapshot.slot ++ "|" ++ snapshot.blockhash
  let entropy_seed := h combined
  { result :=
      { tokens_state_hash := tokens_state_hash
      , docs_hash := docs_hash
      , entropy_seed := entropy_seed
      , canonical_tokens_json := canonical_tokens_json
      , doc_count := sortedIds.length }
  , token_states_after := snapshot.token_states
  , documentIds_after := sortedIds }

/-- `computeEntropy` from src/entropy.ts (its returned value). -/
def computeEntropy (h : String → String) (snapshot : ChainSnapshot)
    (documentIds : List String) : EntropyResult :=
  (computeEntropyCall h snapshot documentIds).result

theorem tokenLe_total : ∀ a b : TokenState, tokenLe a b = true ∨ tokenLe b a = true :=
  fun a b => strLe_total a.key b.key

theorem tokenLe_trans : ∀ a b c : TokenState,
    tokenLe a b = true → tokenLe b c = true → tokenLe a c = true :=
  fun _ _ _ hab hbc => strLe_trans hab hbc

theorem strLeB_total : ∀ a b : String, strLe a b = true ∨ strLe b a = true :=
  strLe_total

theorem strLeB_trans : ∀ a b c : String,
    strLe a b = true → strLe b c = true → strLe a c = true :=
  fun _ _ _ hab hbc => strLe_trans hab hbc

/-! ## Memo wire format (src/memoCommit.ts) -/

/-- `CommitPayload`: the fields committed on-chain.  Both numeric fields
are produced by the tick from a chain slot and a list length, hence
naturals. -/
structure CommitPayload where
  slot : Nat
  blockhash : String
  tokens_state_hash : String
  docs_hash : String
  doc_count : Nat
  entropy_seed : String
deriving DecidableEq

/-- `formatMemoContent`: writer of the canonical memo string
`LAVA_V1|slot=<slot>|blockhash=<bh>|tokens=<hash>|docs=<hash>|n=<count>|seed=<seed>`. -/
def formatMemoContent (payload : CommitPayload) : String :=
  "LAVA_V1"
    ++ "|slot=" ++ natToString payload.slot
    ++ "|blockhash=" ++ payload.blockhash
    ++ "|tokens=" ++ payload.tokens_state_hash
    ++ "|docs=" ++ payload.docs_hash
    ++ "|n=" ++ natToString payload.doc_count
    ++ "|seed=" ++ payload.entropy_seed

/-- Result type of the parser (`CommitPayload & { version: string }`;
`parseInt` may produce negative values, hence integers here). -/
structure ParsedMemo where
  version : String
  slot : Int
  blockhash : String
  tokens_state_hash : String
  docs_hash : String
  doc_count : Int
  entropy_seed : String
deriving DecidableEq

/-- The `get` helper of `parseMemoContent`:
`parts.find((p) => p.startsWith(prefix + "="))?.slice(prefix.length + 1)`. -/
def getSegment (parts : List (List Char)) (key : List Char) : Option (List Char) :=
  (parts.find? (fun p => isPreB (key ++ ['=']) p)).map
    (fun p => sliceFrom (key.length + 1) p)

/-- JS falsiness of an optional string value (`!slotStr` is true for
both `undefined` and `""`). -/
def nonEmptyOpt : Option (List Char) → Option (List Char)
  | some s => if s.isEmpty then none else some s
  | none => none

/-- `parseMemoContent` from src/memoCommit.ts.  Returns `none` exactly
where the source returns `null`. -/
def parseMemoContent (memo : String) : Option ParsedMemo :=
  let parts := splitPipe memo.data
  if parts.length < 6 ∨ parts.head? ≠ some "LAVA_V1".data then none
  else
    match nonEmptyOpt (getSegment parts "slot".data),
        nonEmptyOpt (getSegment parts "blockhash".data),
        nonEmptyOpt (getSegment parts "tokens".data),
        nonEmptyOpt (getSegment parts "docs".data),
        nonEmptyOpt (getSegment parts "seed".data) with
    | some slotStr, some blockhash, some tokens_state_hash, some docs_hash, some entropy_seed =>
      match parseIntJS ⟨slotStr⟩ with
      | none => none
      | some slot =>
        let doc_count : Int :=
          match nonEmptyOpt (getSegment parts "n".data) with
          | some ds => (parseIntJS ⟨ds⟩).getD 0
          | none => 0
        some
          { version := "LAVA_V1"
          , slot := slot
          , blockhash := ⟨blockhash⟩
          , tokens_state_hash := ⟨tokens_state_hash⟩
          , docs_hash := ⟨docs_hash⟩
          , doc_count := doc_count
          , entropy_seed := ⟨entropy_seed⟩ }
    | _, _, _, _, _ => none

/-- The payload assembled by the tick orchestrator
(src/api/encryptionWorkflow.ts, the `sendCommit` call site): slot and
blockhash from the snapshot, the remaining fields from the entropy
result. -/
def tickPayload (snapshot : ChainSnapshot) (e : EntropyResult) : CommitPayload :=
  { slot := snapshot.slot
  , blockhash := snapshot.blockhash
  , tokens_state_hash := e.tokens_state_hash
  , docs_hash := e.docs_hash
  , doc_count := e.doc_count
  , entropy_seed := e.entropy_seed }

/-- The memo text a tick commits for given inputs. -/
def memoForTick (h : String → String) (snapshot : ChainSnapshot)
    (documentIds : List String) : String :=
  formatMemoContent (tickPayload snapshot (computeEntropy h snapshot documentIds))

/-! ## Transaction sending with retry (src/solana.ts)

`sendAndConfirmTransaction` is an RPC call whose outcome varies per
attempt; the environment is modelled as a function from the attempt
index to an outcome.  `sleep` does not affect the result; the delay
requested before each retry is recorded in the trace. -/

/-- Outcome of one `sendAndConfirmTransaction` call. -/
inductive SendOutcome where
  | ok (sig : String)
  | fail (err : String)
deriving DecidableEq

/-- `isTransientError` from src/solana.ts. -/
def isTransientError (err : String) : Bool :=
  let msg := toLowerStr err
  containsSubS msg "blockhash not found"
    || containsSubS msg "timeout"
    || containsSubS msg "502"
    || containsSubS msg "503"
    || containsSubS msg "429"
    || containsSubS msg "econnreset"
    || containsSubS msg "enotfound"
    || containsSubS msg "network"
    || containsSubS msg "too many requests"

/-- The terminal error text thrown by `sendWithRetry`. -/
def retryErrorText (attempt : Nat) (err : String) : String :=
  "Transaction failed after " ++ natToString (attempt + 1) ++ " attempt(s): " ++ err

/-- Observable result of a `sendWithRetry` call: the returned signature
or thrown error, the number of attempts made, and the backoff delays
requested between attempts. -/
instance : DecidableEq (Except String String) := fun a b =>
  match a, b with
  | .ok x, .ok y =>
    if h : x = y then isTrue (by rw [h])
    else isFalse (by intro hc; injection hc; contradiction)
  | .error x, .error y =>
    if h : x = y then isTrue (by rw [h])
    else isFalse (by intro hc; injection hc; contradiction)
  | .ok _, .error _ => isFalse (by intro hc; cases hc)
  | .error _, .ok _ => isFalse (by intro hc; cases hc)

structure RetryTrace where
  result : Except String String
  attempts : Nat
  delays : List Nat
deriving DecidableEq

/-- The loop of `sendWithRetry`.  The source iterates
`for (attempt = 0; attempt <= maxRetries; attempt++)`; here `left` is
the number of iterations remaining after the current one, i.e. the loop
invariant is `attempt + left = maxRetries`, so the source's exit test
`attempt === maxRetries` is `left = 0`. -/
def sendWithRetryGo (send : Nat → SendOutcome) (baseDelay : Nat) :
    Nat → Nat → RetryTrace
  | attempt, 0 =>
    -- last iteration: `attempt === maxRetries`, so any failure is terminal
    (match send attempt with
      | .ok sig => { result := .ok sig, attempts := attempt + 1, delays := [] }
      | .fail err =>
        { result := .error (retryErrorText attempt err)
        , attempts := attempt + 1, delays := [] })
  | attempt, left + 1 =>
    (match send attempt with
      | .ok sig => { result := .ok sig, attempts := attempt + 1, delays := [] }
      | .fail err =>
        if isTransientError err = false then
          { result := .error (retryErrorText attempt err)
          , attempts := attempt + 1, delays := [] }
        else
          let r := sendWithRetryGo send baseDelay (attempt + 1) left
          { result := r.result
          , attempts := r.attempts
          , delays := baseDelay * 2 ^ attempt :: r.delays })

/-- `sendWithRetry` from src/solana.ts, with the option defaults
`maxRetries = 5`, `baseDelayMs = 800` supplied by the caller. -/
def sendWithRetry (send : Nat → SendOutcome) (maxRetries baseDelay : Nat) : RetryTrace :=
  sendWithRetryGo send baseDelay 0 maxRetries

/-! ## Snapshot fetching (src/snapshot.ts)

`connection.getParsedAccountInfo` is an RPC whose response (or thrown
error) is environment data, modelled per pubkey by `RpcResult`.
`ParsedAccountData.parsed` is an untyped JSON value. -/

/-- The data of a found account: either a raw `Buffer` of bytes or
`ParsedAccountData` (`program` plus the untyped `parsed` field;
`program` is optional to model the `accountData.program ?? "spl-token"`
guard in the source). -/
inductive AccountData where
  | buffer (bytes : List Nat)
  | parsedData (program : Option String) (parsed : Option JsonValue)

/-- Outcome of `getParsedAccountInfo` for one account. -/
inductive RpcResult where
  | throws (err : String)
  | value (v : Option AccountData)

/-- JS truthiness of a value. -/
def jsTruthy : JsonValue → Bool
  | .null => false
  | .bool b => b
  | .num n => n ≠ 0
  | .str s => ¬s.isEmpty
  | .arr _ => true
  | .obj _ => true

/-- `typeof v === "object"` (arrays and objects; `null` is also an
object in JS but is always rejected first by the falsiness check it is
paired with in this code). -/
def jsIsObjectType : JsonValue → Bool
  | .obj _ => true
  | .arr _ => true
  | .null => true
  | _ => false

/-- Property access `v[key]`: `none` models `undefined`. -/
def jsGetField : JsonValue → String → Option JsonValue
  | .obj fields, key =>
    match fields.find? (fun p => p.1 = key) with
    | some p => some p.2
    | none => none
  | _, _ => none

mutual

/-- JS `String(v)` for the values reachable here.  Numbers are rendered
in decimal (all numbers in this data are integers), arrays join their
recursively converted elements with `","` (`null` elements become
`""`), plain objects render as `"[object Object]"`. -/
def jsToString : JsonValue → String
  | .null => "null"
  | .bool true => "true"
  | .bool false => "false"
  | .num n => intToString n
  | .str s => s
  | .arr items => ⟨interSep ',' (jsToStringList items)⟩
  | .obj _ => "[object Object]"

def jsToStringList : List JsonValue → List (List Char)
  | [] => []
  | v :: vs =>
    (match v with
      | .null => []
      | w => (jsToString w).data) :: jsToStringList vs

end

/-- `stringField` from src/snapshot.ts (generalized to any receiver:
indexing a non-object JS value yields `undefined`, hence `""`). -/
def stringField (obj : JsonValue) (key : String) : String :=
  match jsGetField obj key with
  | some (.str s) => s
  | none => ""
  | some .null => ""
  | some v => jsToString v

/-- `Number(s)` on a string, for the integer-valued strings that occur
in token account data; non-numeric strings give `none` (NaN).
(Fractional numbers do not occur in this field and are not modelled.) -/
def jsNumberInt (s : String) : Option Int :=
  let cs := s.data.dropWhile isWhitespaceChar
  if cs.isEmpty then some 0
  else
    let signRest := parseSign cs
    let ds := signRest.2.takeWhile Char.isDigit
    if ds.isEmpty ∨ (signRest.2.dropWhile Char.isDigit).isEmpty = false then none
    else some (signRest.1 * (digitsVal ds : Int))

/-- `numberFieldOrNull` from src/snapshot.ts. -/
def numberFieldOrNull (obj : JsonValue) (key : String) : Option Int :=
  match jsGetField obj key with
  | some (.num n) => some n
  | some (.str s) => jsNumberInt s
  | _ => none

/-- `fallback` from src/snapshot.ts: hash the raw bytes and record the
reason.  `hb` is the byte-level SHA3-256. -/
def fallbackState (hb : List Nat → String) (pubkeyStr : String) (rawBytes : List Nat)
    (reason : String) : TokenState :=
  .fallback
    { token_account_pubkey := pubkeyStr
    , raw_data_hash := hb rawBytes
    , error := reason }

/-- `fetchTokenState` from src/snapshot.ts, branch by branch. -/
def fetchTokenState (hb : List Nat → String) (rpc : String → RpcResult)
    (pubkeyStr : String) : TokenState :=
  match rpc pubkeyStr with
  | .throws err => fallbackState hb pubkeyStr [] ("RPC error: " ++ err)
  | .value none => fallbackState hb pubkeyStr [] "Account not found on-chain"
  | .value (some (.buffer bytes)) =>
    fallbackState hb pubkeyStr bytes "Account data is not parsed (not an SPL token account)"
  | .value (some (.parsedData program parsedOpt)) =>
    match parsedOpt with
    | none => fallbackState hb pubkeyStr [] "No parsed field in account data"
    | some parsed =>
      if ¬(jsTruthy parsed = true ∧ jsIsObjectType parsed = true) then
        fallbackState hb pubkeyStr [] "No parsed field in account data"
      else
        match jsGetField parsed "info" with
        | none => fallbackState hb pubkeyStr [] "No info field in parsed account data"
        | some info =>
          if ¬(jsTruthy info = true ∧ jsIsObjectType info = true) then
            fallbackState hb pubkeyStr [] "No info field in parsed account data"
          else
            let tokenAmountOpt := jsGetField info "tokenAmount"
            let useTA : Bool :=
              match tokenAmountOpt with
              | some ta => jsTruthy ta
              | none => false
            .parsed
              { token_account_pubkey := pubkeyStr
              , owner := stringField info "owner"
              , mint := stringField info "mint"
              , amount :=
                  match tokenAmountOpt, useTA with
                  | some ta, true => stringField ta "amount"
                  | _, _ => stringField info "amount"
              , decimals :=
                  match tokenAmountOpt, useTA with
                  | some ta, true => numberFieldOrNull ta "decimals"
                  | _, _ => none
              , program := program.getD "spl-token" }

/-- `fetchSnapshot` from src/snapshot.ts: slot and blockhash are the
chain-level RPC answers; token accounts are fetched per pubkey, in
order. -/
def fetchSnapshot (hb : List Nat → String) (slot : Nat) (blockhash : String)
    (rpc : String → RpcResult) (pubkeys : List String) : ChainSnapshot :=
  { slot := slot
  , blockhash := blockhash
  , token_states := pubkeys.map (fetchTokenState hb rpc) }

/-- Which RPC responses make `fetchTokenState` take a fallback branch:
a thrown per-account fault, an absent account, raw (unparsed) buffer
data, or a missing/non-object `parsed` or `info` field. -/
def rpcFails : RpcResult → Bool
  | .throws _ => true
  | .value none => true
  | .value (some (.buffer _)) => true
  | .value (some (.parsedData _ parsedOpt)) =>
    match parsedOpt with
    | none => true
    | some parsed =>
      if ¬(jsTruthy parsed = true ∧ jsIsObjectType parsed = true) then true
      else
        match jsGetField parsed "info" with
        | none => true
        | some info => ¬(jsTruthy info = true ∧ jsIsObjectType info = true)

/-! ## Claim theorems -/

/-- C1.  For every fixed input, calling `computeEntropy` twice yields
byte-identical `tokens_state_hash`, `docs_hash` and `entropy_seed`
(stated for the second call on the exact post-call contents of the two
argument arrays, which the first call may have re-ordered in place),
and the result is independent of the runtime's object key insertion
order, because `stableStringify` sorts object keys lexicographically at
every nesting level: serializing any two values that agree up to key
order (same recursive key-sorted normal form) yields identical
strings. -/
theorem computeEntropy_deterministic_and_key_order_independent :
    (∀ (h : String → String) (snap : ChainSnapshot) (ids : List String),
      computeEntropy h
        { slot := snap.slot, blockhash := snap.blockhash
        , token_states := (computeEntropyCall h snap ids).token_states_after }
        (computeEntropyCall h snap ids).documentIds_after
      = computeEntropy h snap ids)
    ∧ (∀ v w : JsonValue, sortJson v = sortJson w →
        stableStringify v = stableStringify w) := by
  constructor
  · intro h snap ids
    show computeEntropy h snap (sortB strLe ids) = computeEntropy h snap ids
    simp only [computeEntropy, computeEntropyCall,
      sortB_idem strLe strLeB_total strLeB_trans]
  · intro v w hvw
    calc stableStringify v = stableStringify (sortJson v) :=
          (innerStringify_sortJson v).symm
      _ = stableStringify (sortJson w) := by rw [hvw]
      _ = stableStringify w := innerStringify_sortJson w

/-- Witness for C1: a concrete object serialized from two different key
insertion orders. -/
theorem computeEntropy_key_order_witness :
    sortJson (JsonValue.obj [("b", .num 1), ("a", .null)])
      = sortJson (JsonValue.obj [("a", .null), ("b", .num 1)])
    ∧ stableStringify (JsonValue.obj [("b", .num 1), ("a", .null)])
      = stableStringify (JsonValue.obj [("a", .null), ("b", .num 1)]) :=
  ⟨rfl, computeEntropy_deterministic_and_key_order_independent.2 _ _ rfl⟩

/-- C2.  `docs_hash` is the hash of the lexicographically sorted id
list joined with `"|"` (`sha3_256("id1|id2")` for `["id2","id1"]`,
`sha3_256("")` with `doc_count = 0` for `[]`), and `entropy_seed` is
the hash of `tokens_state_hash`, `docs_hash`, the decimal slot and the
blockhash joined with `"|"` in that order. -/
theorem computeEntropy_chained_hash (h : String → String) (snap : ChainSnapshot)
    (ids : List String) :
    (computeEntropy h snap ids).docs_hash = h (joinPipeS (sortB strLe ids))
    ∧ (computeEntropy h snap ["id2", "id1"]).docs_hash = h "id1|id2"
    ∧ (computeEntropy h snap []).docs_hash = h ""
    ∧ (computeEntropy h snap []).doc_count = 0
    ∧ (computeEntropy h snap ids).entropy_seed
        = h ((computeEntropy h snap ids).tokens_state_hash ++ "|"
            ++ (computeEntropy h snap ids).docs_hash ++ "|"
            ++ natToString snap.slot ++ "|" ++ snap.blockhash) :=
  ⟨rfl, rfl, rfl, rfl, rfl⟩

/-- C4 (amended).  Permuting `documentIds` never changes the three
hashes; permuting `token_states` leaves them unchanged provided any two
entries sharing a pubkey are equal (in particular whenever the pubkeys
are pairwise distinct).  Without that proviso the stable sort preserves
the relative input order of distinct same-key entries and the canonical
JSON differs, see the counterexample. -/
theorem computeEntropy_permutation_invariant :
    (∀ (h : String → String) (snap : ChainSnapshot) (ids ids' : List String),
      List.Perm ids ids' →
      (computeEntropy h snap ids).tokens_state_hash
        = (computeEntropy h snap ids').tokens_state_hash
      ∧ (computeEntropy h snap ids).docs_hash
        = (computeEntropy h snap ids').docs_hash
      ∧ (computeEntropy h snap ids).entropy_seed
        = (computeEntropy h snap ids').entropy_seed)
    ∧ (∀ (h : String → String) (slot : Nat) (bh : String)
        (ts ts' : List TokenState) (ids ids' : List String),
      List.Perm ts ts' → List.Perm ids ids' →
      (∀ a ∈ ts, ∀ b ∈ ts, a.key = b.key → a = b) →
      (computeEntropy h ⟨slot, bh, ts⟩ ids).tokens_state_hash
        = (computeEntropy h ⟨slot, bh, ts'⟩ ids').tokens_state_hash
      ∧ (computeEntropy h ⟨slot, bh, ts⟩ ids).docs_hash
        = (computeEntropy h ⟨slot, bh, ts'⟩ ids').docs_hash
      ∧ (computeEntropy h ⟨slot, bh, ts⟩ ids).entropy_seed
        = (computeEntropy h ⟨slot, bh, ts'⟩ ids').entropy_seed) := by
  constructor
  · intro h snap ids ids' hids
    have hsids : sortB strLe ids = sortB strLe ids' :=
      sortB_eq_of_perm strLe strLeB_total strLeB_trans hids
        (fun a _ b _ hab hba => strLe_antisymm hab hba)
    refine ⟨rfl, ?_, ?_⟩ <;>
      simp only [computeEntropy, computeEntropyCall, hsids]
  · intro h slot bh ts ts' ids ids' hts hids hkey
    have hsts : sortB tokenLe ts = sortB tokenLe ts' :=
      sortB_eq_of_perm tokenLe tokenLe_total tokenLe_trans hts
        (fun a ha b hb hab hba => hkey a ha b hb (strLe_antisymm hab hba))
    have hsids : sortB strLe ids = sortB strLe ids' :=
      sortB_eq_of_perm strLe strLeB_total strLeB_trans hids
        (fun a _ b _ hab hba => strLe_antisymm hab hba)
    refine ⟨?_, ?_, ?_⟩ <;>
      simp only [computeEntropy, computeEntropyCall, hsts, hsids]

/-- Witness for C4 at concrete permuted inputs: the id-permutation
clause is exercised on a snapshot that does contain two distinct
entries sharing a pubkey, the token-permutation clause on one with
distinct pubkeys. -/
theorem computeEntropy_permutation_witness :
    (computeEntropy (fun s => s)
        ⟨1, "B", [.parsed ⟨"p", "o1", "m", "5", none, "t"⟩,
                  .parsed ⟨"p", "o2", "m", "6", none, "t"⟩]⟩ ["y", "x"]).entropy_seed
      = (computeEntropy (fun s => s)
          ⟨1, "B", [.parsed ⟨"p", "o1", "m", "5", none, "t"⟩,
                    .parsed ⟨"p", "o2", "m", "6", none, "t"⟩]⟩ ["x", "y"]).entropy_seed
    ∧ (computeEntropy (fun s => s)
        ⟨1, "B", [.parsed ⟨"p1", "o1", "m", "5", none, "t"⟩,
                  .parsed ⟨"p2", "o2", "m", "6", none, "t"⟩]⟩ ["y", "x"]).entropy_seed
      = (computeEntropy (fun s => s)
          ⟨1, "B", [.parsed ⟨"p2", "o2", "m", "6", none, "t"⟩,
                    .parsed ⟨"p1", "o1", "m", "5", none, "t"⟩]⟩ ["x", "y"]).entropy_seed :=
  ⟨(computeEntropy_permutation_invariant.1 (fun s => s)
      ⟨1, "B", [.parsed ⟨"p", "o1", "m", "5", none, "t"⟩,
                .parsed ⟨"p", "o2", "m", "6", none, "t"⟩]⟩
      ["y", "x"] ["x", "y"] (by decide)).2.2,
   (computeEntropy_permutation_invariant.2 (fun s => s) 1 "B"
      [.parsed ⟨"p1", "o1", "m", "5", none, "t"⟩, .parsed ⟨"p2", "o2", "m", "6", none, "t"⟩]
      [.parsed ⟨"p2", "o2", "m", "6", none, "t"⟩, .parsed ⟨"p1", "o1", "m", "5", none, "t"⟩]
      ["y", "x"] ["x", "y"] (by decide) (by decide) (by decide)).2.2⟩

/-- Counterexample for C4 as stated: two distinct entries share the
pubkey `"p"`; swapping them changes the canonical JSON, hence the hash
input and (with any collision-free hash — here the identity function)
the `tokens_state_hash` itself. -/
theorem computeEntropy_permutation_counterexample :
    List.Perm
      [TokenState.parsed ⟨"p", "o1", "m", "5", none, "t"⟩,
       TokenState.parsed ⟨"p", "o2", "m", "6", none, "t"⟩]
      [TokenState.parsed ⟨"p", "o2", "m", "6", none, "t"⟩,
       TokenState.parsed ⟨"p", "o1", "m", "5", none, "t"⟩]
    ∧ (computeEntropy (fun s => s)
        ⟨1, "B", [.parsed ⟨"p", "o1", "m", "5", none, "t"⟩,
                  .parsed ⟨"p", "o2", "m", "6", none, "t"⟩]⟩ []).canonical_tokens_json
      ≠ (computeEntropy (fun s => s)
          ⟨1, "B", [.parsed ⟨"p", "o2", "m", "6", none, "t"⟩,
                    .parsed ⟨"p", "o1", "m", "5", none, "t"⟩]⟩ []).canonical_tokens_json
    ∧ (computeEntropy (fun s => s)
        ⟨1, "B", [.parsed ⟨"p", "o1", "m", "5", none, "t"⟩,
                  .parsed ⟨"p", "o2", "m", "6", none, "t"⟩]⟩ []).tokens_state_hash
      ≠ (computeEntropy (fun s => s)
          ⟨1, "B", [.parsed ⟨"p", "o2", "m", "6", none, "t"⟩,
                    .parsed ⟨"p", "o1", "m", "5", none, "t"⟩]⟩ []).tokens_state_hash := by
  refine ⟨by decide, by decide, by decide⟩

/-- C8 (amended).  `computeEntropy` never touches the snapshot's
`token_states` array (it sorts a copy), and it returns the same
`EntropyResult` for the same inputs; but it sorts `documentIds` in
place, so that array is only guaranteed unchanged when it was already
sorted (the documented precondition) — in general its multiset of
elements is preserved while the order may change. -/
theorem computeEntropy_frame (h : String → String) (snap : ChainSnapshot)
    (ids : List String) :
    (computeEntropyCall h snap ids).token_states_after = snap.token_states
    ∧ List.Perm (computeEntropyCall h snap ids).documentIds_after ids
    ∧ (SortedB strLe ids → (computeEntropyCall h snap ids).documentIds_after = ids) :=
  ⟨rfl, sortB_perm strLe ids, fun hs => sortB_eq_self strLe ids hs⟩

/-- Witness for C8 on a concrete sorted input. -/
theorem computeEntropy_frame_witness :
    SortedB strLe ["a", "b"]
    ∧ (computeEntropyCall (fun s => s) ⟨1, "B", []⟩ ["a", "b"]).token_states_after = []
    ∧ (computeEntropyCall (fun s => s) ⟨1, "B", []⟩ ["a", "b"]).documentIds_after
        = ["a", "b"] := by
  refine ⟨?_, ?_, ?_⟩
  · decide
  · exact (computeEntropy_frame (fun s => s) ⟨1, "B", []⟩ ["a", "b"]).1
  · exact (computeEntropy_frame (fun s => s) ⟨1, "B", []⟩ ["a", "b"]).2.2 (by decide)

/-- Counterexample for C8 as stated: on an unsorted id list the
caller's array is re-ordered by the call (`documentIds.sort()` sorts in
place). -/
theorem computeEntropy_frame_counterexample :
    (computeEntropyCall (fun s => s) ⟨1, "B", []⟩ ["b", "a"]).documentIds_after
      ≠ ["b", "a"] := by decide

/-- C9 (amended).  The memo text committed by a tick depends on the
`documentIds` input only through `docs_hash` and `doc_count`: with the
same snapshot, any two id lists giving equal `docs_hash` and equal
`doc_count` produce identical memo strings.  (The further conjunct of
the original claim — that no raw id string occurs as a substring of the
payload fields — is false, see the counterexample: a short id can occur
inside the blockhash or any other field by coincidence.) -/
theorem memoForTick_depends_only_on_docs_hash_and_count
    (h : String → String) (snap : ChainSnapshot) (ids ids' : List String)
    (hdocs : (computeEntropy h snap ids).docs_hash
      = (computeEntropy h snap ids').docs_hash)
    (hcount : (computeEntropy h snap ids).doc_count
      = (computeEntropy h snap ids').doc_count) :
    memoForTick h snap ids = memoForTick h snap ids' := by
  have hseed : (computeEntropy h snap ids).entropy_seed
      = (computeEntropy h snap ids').entropy_seed := by
    simp only [computeEntropy, computeEntropyCall] at hdocs ⊢
    rw [hdocs]
  have htok : (computeEntropy h snap ids).tokens_state_hash
      = (computeEntropy h snap ids').tokens_state_hash := rfl
  simp only [memoForTick, tickPayload, formatMemoContent, hdocs, hcount, hseed, htok]

/-- Witness for C9: two concretely different id lists with equal hash
and count give the identical memo. -/
theorem memoForTick_depends_witness :
    ["y", "x"] ≠ ["x", "y"]
    ∧ memoForTick (fun s => s) ⟨3, "B", []⟩ ["y", "x"]
        = memoForTick (fun s => s) ⟨3, "B", []⟩ ["x", "y"] :=
  ⟨by decide,
    memoForTick_depends_only_on_docs_hash_and_count (fun s => s) ⟨3, "B", []⟩
      ["y", "x"] ["x", "y"] (by decide) (by decide)⟩

/-- Counterexample for C9 as stated: with `documentIds = ["b"]` the raw
id `"b"` is a substring of the payload's `blockhash` field (and of the
memo text). -/
theorem memoForTick_substring_counterexample :
    containsSubS (tickPayload ⟨7, "zb", []⟩
        (computeEntropy (fun s => s) ⟨7, "zb", []⟩ ["b"])).blockhash "b" = true
    ∧ containsSubS (memoForTick (fun s => s) ⟨7, "zb", []⟩ ["b"]) "b" = true := by
  refine ⟨by decide, by decide⟩

/-- C10.  The parser accepts loosely numeric fields: a `slot=12abc`
segment parses to slot 12 by `parseInt` truncation, and a memo whose
`n=` segment is absent, or non-numeric, still parses with
`doc_count = 0`. -/
theorem parseMemoContent_loose_numeric_fields :
    parseMemoContent "LAVA_V1|slot=12abc|blockhash=bh|tokens=tk|docs=dc|n=3|seed=sd"
      = some ⟨"LAVA_V1", 12, "bh", "tk", "dc", 3, "sd"⟩
    ∧ parseMemoContent "LAVA_V1|slot=9|blockhash=bq|tokens=tq|docs=dq|seed=sq|x=1"
      = some ⟨"LAVA_V1", 9, "bq", "tq", "dq", 0, "sq"⟩
    ∧ parseMemoContent "LAVA_V1|slot=4|blockhash=bw|tokens=tw|docs=dw|n=xy|seed=sw"
      = some ⟨"LAVA_V1", 4, "bw", "tw", "dw", 0, "sw"⟩ := by
  refine ⟨by decide, by decide, by decide⟩

theorem sendWithRetryGo_all_transient (send : Nat → SendOutcome) (baseDelay : Nat) :
    ∀ left attempt,
      (∀ k, attempt ≤ k → k ≤ attempt + left →
        ∃ e, send k = .fail e ∧ isTransientError e = true) →
      (sendWithRetryGo send baseDelay attempt left).attempts = attempt + left + 1
      ∧ (∃ msg, (sendWithRetryGo send baseDelay attempt left).result = .error msg)
      ∧ (sendWithRetryGo send baseDelay attempt left).delays
          = (List.range' attempt left).map (fun a => baseDelay * 2 ^ a) := by
  intro left
  induction left with
  | zero =>
    intro attempt hall
    obtain ⟨e, hse, hte⟩ := hall attempt (le_refl _) (by omega)
    simp only [sendWithRetryGo, hse]
    exact ⟨by simp, ⟨_, rfl⟩, rfl⟩
  | succ lft ih =>
    intro attempt hall
    obtain ⟨e, hse, hte⟩ := hall attempt (le_refl _) (by omega)
    simp only [sendWithRetryGo, hse]
    have hcond : ¬(isTransientError e = false) := by
      rw [hte]; intro hf; cases hf
    rw [if_neg hcond]
    obtain ⟨ha, hr, hd⟩ := ih (attempt + 1) (fun k hk1 hk2 => hall k (by omega) (by omega))
    refine ⟨?_, hr, ?_⟩
    · simp only [ha]; omega
    · simp only [hd, List.range'_succ, List.map_cons]

theorem sendWithRetryGo_nontransient (send : Nat → SendOutcome) (baseDelay : Nat) :
    ∀ left attempt j, attempt ≤ j → j ≤ attempt + left →
      (∀ k, attempt ≤ k → k < j → ∃ e, send k = .fail e ∧ isTransientError e = true) →
      (∃ e, send j = .fail e ∧ isTransientError e = false) →
      (sendWithRetryGo send baseDelay attempt left).attempts = j + 1
      ∧ ∃ msg, (sendWithRetryGo send baseDelay attempt left).result = .error msg := by
  intro left
  induction left with
  | zero =>
    intro attempt j h1 h2 _ hnt
    have hj : j = attempt := by omega
    subst hj
    obtain ⟨e, hse, _⟩ := hnt
    simp only [sendWithRetryGo, hse]
    exact ⟨by simp, ⟨_, rfl⟩⟩
  | succ lft ih =>
    intro attempt j h1 h2 htrans hnt
    by_cases hj : j = attempt
    · subst hj
      obtain ⟨e, hse, hne⟩ := hnt
      simp only [sendWithRetryGo, hse]
      rw [if_pos hne]
      exact ⟨by simp, ⟨_, rfl⟩⟩
    · obtain ⟨e, hse, hte⟩ := htrans attempt (le_refl _) (by omega)
      simp only [sendWithRetryGo, hse]
      have hcond : ¬(isTransientError e = false) := by
        rw [hte]; intro hf; cases hf
      rw [if_neg hcond]
      obtain ⟨ha, hr⟩ := ih (attempt + 1) j (by omega) (by omega)
        (fun k hk1 hk2 => htrans k (by omega) hk2) hnt
      exact ⟨ha, hr⟩

/-- C6.  If every attempt raises a transient-classified fault,
`sendWithRetry` makes exactly `maxRetries + 1` attempts, requesting a
delay of `baseDelayMs * 2^attempt` before each retry, and then raises a
terminal error; and as soon as some attempt `j` raises a non-transient
fault (all earlier ones transient), it raises immediately after
`j + 1` attempts with no further retries. -/
theorem sendWithRetry_bound :
    (∀ (send : Nat → SendOutcome) (maxRetries baseDelay : Nat),
      (∀ k, k ≤ maxRetries → ∃ e, send k = .fail e ∧ isTransientError e = true) →
      (sendWithRetry send maxRetries baseDelay).attempts = maxRetries + 1
      ∧ (∃ msg, (sendWithRetry send maxRetries baseDelay).result = .error msg)
      ∧ (sendWithRetry send maxRetries baseDelay).delays
          = (List.range maxRetries).map (fun a => baseDelay * 2 ^ a))
    ∧ (∀ (send : Nat → SendOutcome) (maxRetries baseDelay j : Nat),
      j ≤ maxRetries →
      (∀ k, k < j → ∃ e, send k = .fail e ∧ isTransientError e = true) →
      (∃ e, send j = .fail e ∧ isTransientError e = false) →
      (sendWithRetry send maxRetries baseDelay).attempts = j + 1
      ∧ ∃ msg, (sendWithRetry send maxRetries baseDelay).result = .error msg) := by
  constructor
  · intro send maxRetries baseDelay hall
    obtain ⟨ha, hr, hd⟩ := sendWithRetryGo_all_transient send baseDelay maxRetries 0
      (fun k hk1 hk2 => hall k (by omega))
    refine ⟨by simpa using ha, hr, ?_⟩
    show (sendWithRetryGo send baseDelay 0 maxRetries).delays = _
    rw [hd, List.range_eq_range']
  · intro send maxRetries baseDelay j hj htrans hnt
    exact sendWithRetryGo_nontransient send baseDelay maxRetries 0 j (by omega)
      (by omega) (fun k hk1 hk2 => htrans k hk2) hnt

/-- Witness for C6: a sender that always times out, `maxRetries = 2`,
base delay 100ms: exactly 3 attempts, delays 100, 200, 400. -/
theorem sendWithRetry_bound_witness :
    (sendWithRetry (fun _ => .fail "Connection TIMEOUT") 2 100).attempts = 3
    ∧ (∃ msg, (sendWithRetry (fun _ => .fail "Connection TIMEOUT") 2 100).result
        = .error msg)
    ∧ (sendWithRetry (fun _ => .fail "Connection TIMEOUT") 2 100).delays
        = (List.range 2).map (fun a => 100 * 2 ^ a) :=
  sendWithRetry_bound.1 (fun _ => .fail "Connection TIMEOUT") 2 100
    (fun k _ => ⟨"Connection TIMEOUT", rfl, by decide⟩)

/-- The `error` field of a fallback-shaped entry (`""` on parsed entries). -/
def fallbackErrorOf : TokenState → String
  | .fallback f => f.error
  | .parsed _ => ""

theorem append_ne_empty_left (s t : String) (h : s.data ≠ []) : s ++ t ≠ "" := by
  intro he
  apply h
  have hd : s.data ++ t.data = ([] : List Char) := by
    have h1 : (s ++ t).data = s.data ++ t.data := rfl
    rw [← h1, he]
  exact (List.append_eq_nil.mp hd).1

/-- `fetchTokenState` is fallback-shaped exactly on the failing RPC
responses enumerated by `rpcFails`. -/
theorem fetchTokenState_fallback_iff (hb : List Nat → String) (rpc : String → RpcResult)
    (pk : String) :
    isTokenStateFallbackB (fetchTokenState hb rpc pk) = rpcFails (rpc pk) := by
  cases hr : rpc pk with
  | throws err => simp [fetchTokenState, rpcFails, hr, fallbackState, isTokenStateFallbackB]
  | value v =>
    cases v with
    | none => simp [fetchTokenState, rpcFails, hr, fallbackState, isTokenStateFallbackB]
    | some ad =>
      cases ad with
      | buffer bytes =>
        simp [fetchTokenState, rpcFails, hr, fallbackState, isTokenStateFallbackB]
      | parsedData program parsedOpt =>
        cases parsedOpt with
        | none => simp [fetchTokenState, rpcFails, hr, fallbackState, isTokenStateFallbackB]
        | some parsed =>
          by_cases hp : jsTruthy parsed = true ∧ jsIsObjectType parsed = true
          · cases hi : jsGetField parsed "info" with
            | none =>
              simp [fetchTokenState, rpcFails, hr, hp, hi, fallbackState,
                isTokenStateFallbackB]
            | some info =>
              by_cases hio : jsTruthy info = true ∧ jsIsObjectType info = true
              · simp [fetchTokenState, rpcFails, hr, hp, hi, hio, isTokenStateFallbackB]
              · simp [fetchTokenState, rpcFails, hr, hp, hi, hio, fallbackState,
                  isTokenStateFallbackB]
          · simp [fetchTokenState, rpcFails, hr, hp, fallbackState, isTokenStateFallbackB]

/-- Every fallback entry carries a non-empty error string. -/
theorem fetchTokenState_error_nonempty (hb : List Nat → String) (rpc : String → RpcResult)
    (pk : String) :
    isTokenStateFallbackB (fetchTokenState hb rpc pk) = true →
    fallbackErrorOf (fetchTokenState hb rpc pk) ≠ "" := by
  intro hfb
  cases hr : rpc pk with
  | throws err =>
    simp only [fetchTokenState, hr, fallbackState, fallbackErrorOf]
    exact append_ne_empty_left "RPC error: " err (by decide)
  | value v =>
    cases v with
    | none => simp [fetchTokenState, hr, fallbackState, fallbackErrorOf]
    | some ad =>
      cases ad with
      | buffer bytes => simp [fetchTokenState, hr, fallbackState, fallbackErrorOf]
      | parsedData program parsedOpt =>
        cases parsedOpt with
        | none => simp [fetchTokenState, hr, fallbackState, fallbackErrorOf]
        | some parsed =>
          by_cases hp : jsTruthy parsed = true ∧ jsIsObjectType parsed = true
          · cases hi : jsGetField parsed "info" with
            | none => simp [fetchTokenState, hr, hp, hi, fallbackState, fallbackErrorOf]
            | some info =>
              by_cases hio : jsTruthy info = true ∧ jsIsObjectType info = true
              · rw [fetchTokenState_fallback_iff hb rpc pk] at hfb
                simp [rpcFails, hr, hp, hi, hio] at hfb
              · simp [fetchTokenState, hr, hp, hi, hio, fallbackState, fallbackErrorOf]
          · simp [fetchTokenState, hr, hp, fallbackState, fallbackErrorOf]

/-- C7.  For every list of tracked pubkeys the snapshot has exactly one
entry per pubkey; an entry is fallback-shaped exactly when that
account's RPC response fails to read or parse, so with M failing
accounts there are exactly M fallback entries, each carrying a
non-empty error; entries are structurally exactly one of the two
shapes, and a per-account fault never escapes `fetchSnapshot`. -/
theorem fetchSnapshot_fallback_completeness
    (hb : List Nat → String) (slot : Nat) (bh : String)
    (rpc : String → RpcResult) (pubkeys : List String) :
    (fetchSnapshot hb slot bh rpc pubkeys).token_states.length = pubkeys.length
    ∧ ((fetchSnapshot hb slot bh rpc pubkeys).token_states.filter
        isTokenStateFallbackB).length
      = (pubkeys.filter (fun pk => rpcFails (rpc pk))).length
    ∧ List.Forall₂ (fun pk ts => isTokenStateFallbackB ts = rpcFails (rpc pk))
        pubkeys (fetchSnapshot hb slot bh rpc pubkeys).token_states
    ∧ ∀ ts ∈ (fetchSnapshot hb slot bh rpc pubkeys).token_states,
        isTokenStateFallbackB ts = true → fallbackErrorOf ts ≠ "" := by
  refine ⟨by simp [fetchSnapshot], ?_, ?_, ?_⟩
  · simp only [fetchSnapshot]
    induction pubkeys with
    | nil => rfl
    | cons pk pks ih =>
      simp only [List.map_cons, List.filter_cons]
      rw [fetchTokenState_fallback_iff hb rpc pk]
      by_cases hf : rpcFails (rpc pk) = true
      · simp only [hf, if_true, List.length_cons, ih]
      · simp only [Bool.not_eq_true] at hf
        simp only [hf, Bool.false_eq_true, if_false, ih]
  · simp only [fetchSnapshot]
    induction pubkeys with
    | nil => exact List.Forall₂.nil
    | cons pk pks ih =>
      exact List.Forall₂.cons (fetchTokenState_fallback_iff hb rpc pk) ih
  · intro ts hts hfb
    simp only [fetchSnapshot, List.mem_map] at hts
    obtain ⟨pk, hpk, rfl⟩ := hts
    exact fetchTokenState_error_nonempty hb rpc pk hfb

/-- A concrete two-account environment for the C7 witness: `p1` is
absent on-chain, `p2` parses as an SPL token account. -/
def rpcEnvC7 : String → RpcResult := fun pk =>
  if pk = "p1" then .value none
  else .value (some (.parsedData (some "spl-token")
    (some (.obj [("info", .obj
      [ ("owner", .str "o"), ("mint", .str "m"), ("amount", .str "1") ])]))))

/-- Witness for C7: two tracked accounts of which one fails: two
entries, one fallback-shaped, with a non-empty error. -/
theorem fetchSnapshot_fallback_witness :
    (fetchSnapshot (fun _ => "HB") 5 "B" rpcEnvC7 ["p1", "p2"]).token_states.length = 2
    ∧ ((fetchSnapshot (fun _ => "HB") 5 "B" rpcEnvC7 ["p1", "p2"]).token_states.filter
        isTokenStateFallbackB).length
      = (["p1", "p2"].filter (fun pk => rpcFails (rpcEnvC7 pk))).length
    ∧ fallbackErrorOf (fetchTokenState (fun _ => "HB") rpcEnvC7 "p1") ≠ "" := by
  refine ⟨(fetchSnapshot_fallback_completeness (fun _ => "HB") 5 "B" rpcEnvC7
      ["p1", "p2"]).1,
    (fetchSnapshot_fallback_completeness (fun _ => "HB") 5 "B" rpcEnvC7
      ["p1", "p2"]).2.1,
    (fetchSnapshot_fallback_completeness (fun _ => "HB") 5 "B" rpcEnvC7
      ["p1", "p2"]).2.2.2 _ (by decide) (by decide)⟩

/-! ## Round-trip machinery for the memo format (C3, C5) -/

theorem strExt {a b : String} (h : a.data = b.data) : a = b := by
  cases a with
  | mk da =>
    cases b with
    | mk db => exact congrArg String.mk (by simpa using h)

theorem data_append (a b : String) : (a ++ b).data = a.data ++ b.data := rfl

theorem natToString_data (n : Nat) : (natToString n).data = natToChars n := rfl

/-- The six `key=value` segments of the writer, in its fixed emission
order. -/
def memoSegments (p : CommitPayload) : List String :=
  [ "slot=" ++ natToString p.slot
  , "blockhash=" ++ p.blockhash
  , "tokens=" ++ p.tokens_state_hash
  , "docs=" ++ p.docs_hash
  , "n=" ++ natToString p.doc_count
  , "seed=" ++ p.entropy_seed ]

/-- What the parser recovers from a memo written from `p`. -/
def expectedParse (p : CommitPayload) : ParsedMemo :=
  { version := "LAVA_V1"
  , slot := p.slot
  , blockhash := p.blockhash
  , tokens_state_hash := p.tokens_state_hash
  , docs_hash := p.docs_hash
  , doc_count := p.doc_count
  , entropy_seed := p.entropy_seed }

def isHexChar (c : Char) : Bool := c.isDigit || ('a' ≤ c && c ≤ 'f')

def isHex64 (s : String) : Bool := (s.data.length == 64) && s.data.all isHexChar

/-- The claim's well-formedness of a payload: 64-char lowercase-hex hash
fields and a pipe-free blockhash (slot and doc_count are naturals by
construction). -/
def WellFormedPayload (p : CommitPayload) : Prop :=
  isHex64 p.tokens_state_hash = true ∧ isHex64 p.docs_hash = true
  ∧ isHex64 p.entropy_seed = true ∧ ∀ c ∈ p.blockhash.data, c ≠ '|'

instance (p : CommitPayload) : Decidable (WellFormedPayload p) :=
  inferInstanceAs (Decidable (_ ∧ _ ∧ _ ∧ ∀ c ∈ p.blockhash.data, c ≠ '|'))

theorem isHexChar_not_pipe {c : Char} (h : isHexChar c = true) : c ≠ '|' := by
  intro hc; subst hc; exact absurd h (by decide)

theorem isHex64_no_pipe {s : String} (h : isHex64 s = true) : ∀ c ∈ s.data, c ≠ '|' := by
  intro c hc
  simp only [isHex64, Bool.and_eq_true] at h
  refine isHexChar_not_pipe ?_
  have hall := List.all_eq_true.mp h.2
  exact hall c hc

theorem isHex64_ne_nil {s : String} (h : isHex64 s = true) : s.data ≠ [] := by
  simp only [isHex64, Bool.and_eq_true, beq_iff_eq] at h
  intro hnil
  rw [hnil] at h
  simp at h

theorem formatMemoContent_eq_join (p : CommitPayload) :
    formatMemoContent p = joinPipeS ("LAVA_V1" :: memoSegments p) := by
  apply strExt
  simp only [formatMemoContent, joinPipeS, memoSegments, List.map_cons, List.map_nil,
    interSep, data_append, natToString_data, List.append_assoc]
  rfl

theorem memoSegments_no_pipe (p : CommitPayload) (hwf : WellFormedPayload p) :
    ∀ s ∈ memoSegments p, ∀ c ∈ s.data, c ≠ '|' := by
  obtain ⟨h1, h2, h3, hbh⟩ := hwf
  intro s hs
  simp only [memoSegments, List.mem_cons, List.not_mem_nil, or_false] at hs
  rcases hs with rfl | rfl | rfl | rfl | rfl | rfl <;> intro c hc <;>
    rw [data_append] at hc
  · rcases List.mem_append.mp hc with hc' | hc'
    · exact (by decide : ∀ x ∈ ("slot=" : String).data, x ≠ '|') c hc'
    · exact isDigit_not_pipe (natToChars_digits _ c hc')
  · rcases List.mem_append.mp hc with hc' | hc'
    · exact (by decide : ∀ x ∈ ("blockhash=" : String).data, x ≠ '|') c hc'
    · exact hbh c hc'
  · rcases List.mem_append.mp hc with hc' | hc'
    · exact (by decide : ∀ x ∈ ("tokens=" : String).data, x ≠ '|') c hc'
    · exact isHex64_no_pipe h1 c hc'
  · rcases List.mem_append.mp hc with hc' | hc'
    · exact (by decide : ∀ x ∈ ("docs=" : String).data, x ≠ '|') c hc'
    · exact isHex64_no_pipe h2 c hc'
  · rcases List.mem_append.mp hc with hc' | hc'
    · exact (by decide : ∀ x ∈ ("n=" : String).data, x ≠ '|') c hc'
    · exact isDigit_not_pipe (natToChars_digits _ c hc')
  · rcases List.mem_append.mp hc with hc' | hc'
    · exact (by decide : ∀ x ∈ ("seed=" : String).data, x ≠ '|') c hc'
    · exact isHex64_no_pipe h3 c hc'

theorem find?_unique (p : α → Bool) (l : List α) (a : α)
    (ha : a ∈ l) (hpa : p a = true)
    (huniq : ∀ b ∈ l, p b = true → b = a) : l.find? p = some a := by
  induction l with
  | nil => cases ha
  | cons x xs ih =>
    by_cases hpx : p x = true
    · have hxa : x = a := huniq x (by simp) hpx
      subst hxa
      simp [List.find?_cons_of_pos _ hpx]
    · rw [List.find?_cons_of_neg _ hpx]
      have hax : a ∈ xs := by
        rcases List.mem_cons.mp ha with rfl | hmem
        · exact absurd hpa hpx
        · exact hmem
      exact ih hax (fun b hb hpb => huniq b (List.mem_cons_of_mem x hb) hpb)

theorem nonEmptyOpt_some {v : List Char} (h : v ≠ []) : nonEmptyOpt (some v) = some v := by
  cases v with
  | nil => exact absurd rfl h
  | cons c cs => rfl

theorem getSegment_of_mem (parts : List (List Char)) (key v : List Char)
    (hmem : (key ++ '=' :: v) ∈ parts)
    (huniq : ∀ b ∈ parts, isPreB (key ++ ['=']) b = true → b = key ++ '=' :: v) :
    getSegment parts key = some v := by
  simp only [getSegment]
  have hpa : isPreB (key ++ ['=']) (key ++ '=' :: v) = true := by
    have h : key ++ '=' :: v = (key ++ ['=']) ++ v := by simp
    rw [h]
    exact isPreB_append _ _
  rw [find?_unique (fun q => isPreB (key ++ ['=']) q) parts (key ++ '=' :: v) hmem hpa huniq]
  simp only [Option.map_some']
  rw [sliceFrom_key]

theorem parseIntJS_mk_natToChars (n : Nat) : parseIntJS ⟨natToChars n⟩ = some (n : Int) :=
  parseIntJS_natToString n

/-- The parser recovers the six fields of a well-formed payload from
`LAVA_V1` followed by the `key=value` segments in any order. -/
theorem parse_of_perm (p : CommitPayload) (hwf : WellFormedPayload p)
    (hbne : p.blockhash ≠ "") (segs' : List String)
    (hperm : List.Perm segs' (memoSegments p)) :
    parseMemoContent (joinPipeS ("LAVA_V1" :: segs')) = some (expectedParse p) := by
  obtain ⟨hx1, hx2, hx3, hbh⟩ := hwf
  have hnp : ∀ s ∈ ("LAVA_V1" :: segs'), ∀ c ∈ s.data, c ≠ '|' := by
    intro s hs
    rcases List.mem_cons.mp hs with rfl | hs'
    · exact (by decide : ∀ c ∈ ("LAVA_V1" : String).data, c ≠ '|')
    · exact memoSegments_no_pipe p ⟨hx1, hx2, hx3, hbh⟩ s (hperm.mem_iff.mp hs')
  have hsplit : splitPipe (joinPipeS ("LAVA_V1" :: segs')).data
      = "LAVA_V1".data :: segs'.map String.data := by
    have h0 : (joinPipeS ("LAVA_V1" :: segs')).data
        = interSep '|' (("LAVA_V1" :: segs').map String.data) := rfl
    rw [h0, splitPipe_interSep (("LAVA_V1" :: segs').map String.data) (by simp)
      (by
        intro q hq c hc
        simp only [List.mem_map] at hq
        obtain ⟨s, hs, rfl⟩ := hq
        exact hnp s hs c hc)]
    simp
  have hlen6 : segs'.length = 6 := by
    have hl := hperm.length_eq
    simpa [memoSegments] using hl
  have hmem : ∀ b ∈ ("LAVA_V1".data :: segs'.map String.data),
      b = "LAVA_V1".data
      ∨ b = ("slot=" ++ natToString p.slot).data
      ∨ b = ("blockhash=" ++ p.blockhash).data
      ∨ b = ("tokens=" ++ p.tokens_state_hash).data
      ∨ b = ("docs=" ++ p.docs_hash).data
      ∨ b = ("n=" ++ natToString p.doc_count).data
      ∨ b = ("seed=" ++ p.entropy_seed).data := by
    intro b hb
    rcases List.mem_cons.mp hb with rfl | hb'
    · exact Or.inl rfl
    · right
      have hb2 : b ∈ (memoSegments p).map String.data :=
        (hperm.map String.data).mem_iff.mp hb'
      simpa [memoSegments] using hb2
  have hget_slot : getSegment ("LAVA_V1".data :: segs'.map String.data) "slot".data
      = some (natToChars p.slot) := by
    refine getSegment_of_mem _ _ _ ?_ ?_
    · exact List.mem_cons_of_mem _
        (List.mem_map_of_mem String.data (hperm.mem_iff.mpr (by unfold memoSegments; exact List.mem_cons_self _ _)))
    · intro b hb hpre
      rcases hmem b hb with rfl | rfl | rfl | rfl | rfl | rfl | rfl
      · exact Bool.noConfusion ((by decide :
          isPreB ("slot".data ++ ['=']) ("LAVA_V1" : String).data = false).symm.trans hpre)
      · rfl
      · exact Bool.noConfusion ((isPreB_append_false ("slot".data ++ ['='])
          ("blockhash=" : String).data p.blockhash.data
          (by decide) (by decide)).symm.trans hpre)
      · exact Bool.noConfusion ((isPreB_append_false ("slot".data ++ ['='])
          ("tokens=" : String).data p.tokens_state_hash.data
          (by decide) (by decide)).symm.trans hpre)
      · exact Bool.noConfusion ((isPreB_append_false ("slot".data ++ ['='])
          ("docs=" : String).data p.docs_hash.data
          (by decide) (by decide)).symm.trans hpre)
      · exact Bool.noConfusion ((isPreB_append_false ("slot".data ++ ['='])
          ("n=" : String).data (natToString p.doc_count).data
          (by decide) (by decide)).symm.trans hpre)
      · exact Bool.noConfusion ((isPreB_append_false ("slot".data ++ ['='])
          ("seed=" : String).data p.entropy_seed.data
          (by decide) (by decide)).symm.trans hpre)
  have hget_blockhash : getSegment ("LAVA_V1".data :: segs'.map String.data) "blockhash".data
      = some p.blockhash.data := by
    refine getSegment_of_mem _ _ _ ?_ ?_
    · exact List.mem_cons_of_mem _
        (List.mem_map_of_mem String.data (hperm.mem_iff.mpr (by unfold memoSegments; exact List.mem_cons_of_mem _ (List.mem_cons_self _ _))))
    · intro b hb hpre
      rcases hmem b hb with rfl | rfl | rfl | rfl | rfl | rfl | rfl
      · exact Bool.noConfusion ((by decide :
          isPreB ("blockhash".data ++ ['=']) ("LAVA_V1" : String).data = false).symm.trans hpre)
      · exact Bool.noConfusion ((isPreB_append_false ("blockhash".data ++ ['='])
          ("slot=" : String).data (natToString p.slot).data
          (by decide) (by decide)).symm.trans hpre)
      · rfl
      · exact Bool.noConfusion ((isPreB_append_false ("blockhash".data ++ ['='])
          ("tokens=" : String).data p.tokens_state_hash.data
          (by decide) (by decide)).symm.trans hpre)
      · exact Bool.noConfusion ((isPreB_append_false ("blockhash".data ++ ['='])
          ("docs=" : String).data p.docs_hash.data
          (by decide) (by decide)).symm.trans hpre)
      · exact Bool.noConfusion ((isPreB_append_false ("blockhash".data ++ ['='])
          ("n=" : String).data (natToString p.doc_count).data
          (by decide) (by decide)).symm.trans hpre)
      · exact Bool.noConfusion ((isPreB_append_false ("blockhash".data ++ ['='])
          ("seed=" : String).data p.entropy_seed.data
          (by decide) (by decide)).symm.trans hpre)
  have hget_tokens : getSegment ("LAVA_V1".data :: segs'.map String.data) "tokens".data
      = some p.tokens_state_hash.data := by
    refine getSegment_of_mem _ _ _ ?_ ?_
    · exact List.mem_cons_of_mem _
        (List.mem_map_of_mem String.data (hperm.mem_iff.mpr (by unfold memoSegments; exact List.mem_cons_of_mem _ (List.mem_cons_of_mem _ (List.mem_cons_self _ _)))))
    · intro b hb hpre
      rcases hmem b hb with rfl | rfl | rfl | rfl | rfl | rfl | rfl
      · exact Bool.noConfusion ((by decide :
          isPreB ("tokens".data ++ ['=']) ("LAVA_V1" : String).data = false).symm.trans hpre)
      · exact Bool.noConfusion ((isPreB_append_false ("tokens".data ++ ['='])
          ("slot=" : String).data (natToString p.slot).data
          (by decide) (by decide)).symm.trans hpre)
      · exact Bool.noConfusion ((isPreB_append_false ("tokens".data ++ ['='])
          ("blockhash=" : String).data p.blockhash.data
          (by decide) (by decide)).symm.trans hpre)
      · rfl
      · exact Bool.noConfusion ((isPreB_append_false ("tokens".data ++ ['='])
          ("docs=" : String).data p.docs_hash.data
          (by decide) (by decide)).symm.trans hpre)
      · exact Bool.noConfusion ((isPreB_append_false ("tokens".data ++ ['='])
          ("n=" : String).data (natToString p.doc_count).data
          (by decide) (by decide)).symm.trans hpre)
      · exact Bool.noConfusion ((isPreB_append_false ("tokens".data ++ ['='])
          ("seed=" : String).data p.entropy_seed.data
          (by decide) (by decide)).symm.trans hpre)
  have hget_docs : getSegment ("LAVA_V1".data :: segs'.map String.data) "docs".data
      = some p.docs_hash.data := by
    refine getSegment_of_mem _ _ _ ?_ ?_
    · exact List.mem_cons_of_mem _
        (List.mem_map_of_mem String.data (hperm.mem_iff.mpr (by unfold memoSegments; exact List.mem_cons_of_mem _ (List.mem_cons_of_mem _ (List.mem_cons_of_mem _ (List.mem_cons_self _ _))))))
    · intro b hb hpre
      rcases hmem b hb with rfl | rfl | rfl | rfl | rfl | rfl | rfl
      · exact Bool.noConfusion ((by decide :
          isPreB ("docs".data ++ ['=']) ("LAVA_V1" : String).data = false).symm.trans hpre)
      · exact Bool.noConfusion ((isPreB_append_false ("docs".data ++ ['='])
          ("slot=" : String).data (natToString p.slot).data
          (by decide) (by decide)).symm.trans hpre)
      · exact Bool.noConfusion ((isPreB_append_false ("docs".data ++ ['='])
          ("blockhash=" : String).data p.blockhash.data
          (by decide) (by decide)).symm.trans hpre)
      · exact Bool.noConfusion ((isPreB_append_false ("docs".data ++ ['='])
          ("tokens=" : String).data p.tokens_state_hash.data
          (by decide) (by decide)).symm.trans hpre)
      · rfl
      · exact Bool.noConfusion ((isPreB_append_false ("docs".data ++ ['='])
          ("n=" : String).data (natToString p.doc_count).data
          (by decide) (by decide)).symm.trans hpre)
      · exact Bool.noConfusion ((isPreB_append_false ("docs".data ++ ['='])
          ("seed=" : String).data p.entropy_seed.data
          (by decide) (by decide)).symm.trans hpre)
  have hget_n : getSegment ("LAVA_V1".data :: segs'.map String.data) "n".data
      = some (natToChars p.doc_count) := by
    refine getSegment_of_mem _ _ _ ?_ ?_
    · exact List.mem_cons_of_mem _
        (List.mem_map_of_mem String.data (hperm.mem_iff.mpr (by unfold memoSegments; exact List.mem_cons_of_mem _ (List.mem_cons_of_mem _ (List.mem_cons_of_mem _ (List.mem_cons_of_mem _ (List.mem_cons_self _ _)))))))
    · intro b hb hpre
      rcases hmem b hb with rfl | rfl | rfl | rfl | rfl | rfl | rfl
      · exact Bool.noConfusion ((by decide :
          isPreB ("n".data ++ ['=']) ("LAVA_V1" : String).data = false).symm.trans hpre)
      · exact Bool.noConfusion ((isPreB_append_false ("n".data ++ ['='])
          ("slot=" : String).data (natToString p.slot).data
          (by decide) (by decide)).symm.trans hpre)
      · exact Bool.noConfusion ((isPreB_append_false ("n".data ++ ['='])
          ("blockhash=" : String).data p.blockhash.data
          (by decide) (by decide)).symm.trans hpre)
      · exact Bool.noConfusion ((isPreB_append_false ("n".data ++ ['='])
          ("tokens=" : String).data p.tokens_state_hash.data
          (by decide) (by decide)).symm.trans hpre)
      · exact Bool.noConfusion ((isPreB_append_false ("n".data ++ ['='])
          ("docs=" : String).data p.docs_hash.data
          (by decide) (by decide)).symm.trans hpre)
      · rfl
      · exact Bool.noConfusion ((isPreB_append_false ("n".data ++ ['='])
          ("seed=" : String).data p.entropy_seed.data
          (by decide) (by decide)).symm.trans hpre)
  have hget_seed : getSegment ("LAVA_V1".data :: segs'.map String.data) "seed".data
      = some p.entropy_seed.data := by
    refine getSegment_of_mem _ _ _ ?_ ?_
    · exact List.mem_cons_of_mem _
        (List.mem_map_of_mem String.data (hperm.mem_iff.mpr (by unfold memoSegments; exact List.mem_cons_of_mem _ (List.mem_cons_of_mem _ (List.mem_cons_of_mem _ (List.mem_cons_of_mem _ (List.mem_cons_of_mem _ (List.mem_cons_self _ _))))))))
    · intro b hb hpre
      rcases hmem b hb with rfl | rfl | rfl | rfl | rfl | rfl | rfl
      · exact Bool.noConfusion ((by decide :
          isPreB ("seed".data ++ ['=']) ("LAVA_V1" : String).data = false).symm.trans hpre)
      · exact Bool.noConfusion ((isPreB_append_false ("seed".data ++ ['='])
          ("slot=" : String).data (natToString p.slot).data
          (by decide) (by decide)).symm.trans hpre)
      · exact Bool.noConfusion ((isPreB_append_false ("seed".data ++ ['='])
          ("blockhash=" : String).data p.blockhash.data
          (by decide) (by decide)).symm.trans hpre)
      · exact Bool.noConfusion ((isPreB_append_false ("seed".data ++ ['='])
          ("tokens=" : String).data p.tokens_state_hash.data
          (by decide) (by decide)).symm.trans hpre)
      · exact Bool.noConfusion ((isPreB_append_false ("seed".data ++ ['='])
          ("docs=" : String).data p.docs_hash.data
          (by decide) (by decide)).symm.trans hpre)
      · exact Bool.noConfusion ((isPreB_append_false ("seed".data ++ ['='])
          ("n=" : String).data (natToString p.doc_count).data
          (by decide) (by decide)).symm.trans hpre)
      · rfl
  simp only [parseMemoContent, hsplit]
  rw [if_neg (by
    rintro (hlt | hhead)
    · rw [List.length_cons, List.length_map, hlen6] at hlt
      omega
    · exact hhead (by simp))]
  rw [hget_slot, hget_blockhash, hget_tokens, hget_docs, hget_seed, hget_n]
  rw [nonEmptyOpt_some (natToChars_ne_nil p.slot),
      nonEmptyOpt_some (show p.blockhash.data ≠ [] from fun hd => hbne (strExt hd)),
      nonEmptyOpt_some (isHex64_ne_nil hx1),
      nonEmptyOpt_some (isHex64_ne_nil hx2),
      nonEmptyOpt_some (isHex64_ne_nil hx3),
      nonEmptyOpt_some (natToChars_ne_nil p.doc_count)]
  simp only [parseIntJS_mk_natToChars, Option.getD_some]
  rfl

/-- C3 (amended).  For every well-formed `CommitPayload` (64-char hex
hash fields, pipe-free and non-empty blockhash, natural slot and
doc_count), the writer emits `LAVA_V1` followed by the six `key=value`
segments in the fixed order slot, blockhash, tokens, docs, n, seed, and
the parser recovers all six fields exactly — from the writer's output
and from any permutation of the six segments.  (Non-emptiness of the
blockhash is required: the parser treats an empty value as a missing
field, see the counterexample.) -/
theorem memo_roundtrip (p : CommitPayload) (hwf : WellFormedPayload p)
    (hbne : p.blockhash ≠ "") :
    formatMemoContent p = joinPipeS ("LAVA_V1" :: memoSegments p)
    ∧ parseMemoContent (formatMemoContent p) = some (expectedParse p)
    ∧ ∀ segs' : List String, List.Perm segs' (memoSegments p) →
        parseMemoContent (joinPipeS ("LAVA_V1" :: segs')) = some (expectedParse p) := by
  refine ⟨formatMemoContent_eq_join p, ?_, parse_of_perm p hwf hbne⟩
  rw [formatMemoContent_eq_join p]
  exact parse_of_perm p hwf hbne (memoSegments p) (List.Perm.refl _)

/-- A concrete well-formed payload for the C3 witness. -/
def payloadC3 : CommitPayload :=
  { slot := 350
  , blockhash := "BlockHash58"
  , tokens_state_hash :=
      "0123456789abcdef0123456789abcdef0123456789abcdef0123456789abcdef"
  , docs_hash :=
      "aaaa456789abcdef0123456789abcdef0123456789abcdef0123456789abcdef"
  , doc_count := 142
  , entropy_seed :=
      "bbbb456789abcdef0123456789abcdef0123456789abcdef0123456789abcdef" }

/-- Witness for C3 on `payloadC3`. -/
theorem memo_roundtrip_witness :
    WellFormedPayload payloadC3 ∧ payloadC3.blockhash ≠ ""
    ∧ parseMemoContent (formatMemoContent payloadC3) = some (expectedParse payloadC3) :=
  ⟨by decide, by decide, (memo_roundtrip payloadC3 (by decide) (by decide)).2.1⟩

/-- A payload that is well-formed in the sense of the original claim
(64-char hex hashes, no `"|"` in the blockhash) but whose blockhash is
empty. -/
def payloadEmptyBlockhash : CommitPayload :=
  { slot := 0
  , blockhash := ""
  , tokens_state_hash :=
      "0123456789abcdef0123456789abcdef0123456789abcdef0123456789abcdef"
  , docs_hash :=
      "aaaa456789abcdef0123456789abcdef0123456789abcdef0123456789abcdef"
  , doc_count := 0
  , entropy_seed :=
      "bbbb456789abcdef0123456789abcdef0123456789abcdef0123456789abcdef" }

/-- Counterexample for C3 as stated: the payload satisfies every
condition of the claim's well-formedness (the empty blockhash contains
no `"|"`), yet `parse(format(payload))` returns `null` instead of
recovering the six fields, because `!blockhash` treats the parsed empty
value as missing. -/
theorem memo_roundtrip_counterexample :
    WellFormedPayload payloadEmptyBlockhash
    ∧ parseMemoContent (formatMemoContent payloadEmptyBlockhash) = none :=
  ⟨by decide, by decide⟩

/-- C5 (amended).  The parser rejects any memo whose first segment is
not exactly `LAVA_V1` (in particular every `LAVA_V2|...` payload), and
accepts a memo only if it has at least six `"|"`-separated parts whose
first is `LAVA_V1` and the five segments `slot=`, `blockhash=`,
`tokens=`, `docs=`, `seed=` are present with non-empty values.  (The
original claim also required an `n=` segment; the code does not — six
parts with `n=` absent are accepted with `doc_count = 0`, see the
counterexample.) -/
theorem parseMemoContent_requirements :
    (∀ rest : String, parseMemoContent ("LAVA_V2|" ++ rest) = none)
    ∧ (∀ (memo : String) (r : ParsedMemo), parseMemoContent memo = some r →
        6 ≤ (splitPipe memo.data).length
        ∧ (splitPipe memo.data).head? = some "LAVA_V1".data
        ∧ nonEmptyOpt (getSegment (splitPipe memo.data) "slot".data) ≠ none
        ∧ nonEmptyOpt (getSegment (splitPipe memo.data) "blockhash".data) ≠ none
        ∧ nonEmptyOpt (getSegment (splitPipe memo.data) "tokens".data) ≠ none
        ∧ nonEmptyOpt (getSegment (splitPipe memo.data) "docs".data) ≠ none
        ∧ nonEmptyOpt (getSegment (splitPipe memo.data) "seed".data) ≠ none) := by
  constructor
  · intro rest
    have hs : splitPipe ("LAVA_V2|" ++ rest).data
        = "LAVA_V2".data :: splitPipe rest.data :=
      splitPipe_append_pipe "LAVA_V2".data rest.data (by decide)
    simp only [parseMemoContent, hs]
    rw [if_pos (Or.inr (by simp))]
  · intro memo r hparse
    simp only [parseMemoContent] at hparse
    by_cases hcond : (splitPipe memo.data).length < 6
        ∨ (splitPipe memo.data).head? ≠ some "LAVA_V1".data
    · rw [if_pos hcond] at hparse
      cases hparse
    · rw [if_neg hcond] at hparse
      push_neg at hcond
      obtain ⟨hlen, hhead⟩ := hcond
      refine ⟨by omega, hhead, ?_, ?_, ?_, ?_, ?_⟩
      all_goals
        cases h1 : nonEmptyOpt (getSegment (splitPipe memo.data) "slot".data) with
        | none => rw [h1] at hparse; cases hparse
        | some v1 =>
          cases h2 : nonEmptyOpt (getSegment (splitPipe memo.data) "blockhash".data) with
          | none => rw [h1, h2] at hparse; cases hparse
          | some v2 =>
            cases h3 : nonEmptyOpt (getSegment (splitPipe memo.data) "tokens".data) with
            | none => rw [h1, h2, h3] at hparse; cases hparse
            | some v3 =>
              cases h4 : nonEmptyOpt (getSegment (splitPipe memo.data) "docs".data) with
              | none => rw [h1, h2, h3, h4] at hparse; cases hparse
              | some v4 =>
                cases h5 : nonEmptyOpt (getSegment (splitPipe memo.data) "seed".data) with
                | none => rw [h1, h2, h3, h4, h5] at hparse; cases hparse
                | some v5 => simp [h1, h2, h3, h4, h5]

/-- Witness for C5: a rejected `LAVA_V2` memo and an accepted full memo
satisfying the amended requirements. -/
theorem parseMemoContent_requirements_witness :
    parseMemoContent ("LAVA_V2|" ++ "slot=1|blockhash=x|tokens=t|docs=d|n=1|seed=s") = none
    ∧ 6 ≤ (splitPipe ("LAVA_V1|slot=8|blockhash=bz|tokens=tz|docs=dz|n=2|seed=sz"
        : String).data).length
    ∧ nonEmptyOpt (getSegment
        (splitPipe ("LAVA_V1|slot=8|blockhash=bz|tokens=tz|docs=dz|n=2|seed=sz"
          : String).data) "slot".data) ≠ none :=
  ⟨parseMemoContent_requirements.1 "slot=1|blockhash=x|tokens=t|docs=d|n=1|seed=s",
   (parseMemoContent_requirements.2
      "LAVA_V1|slot=8|blockhash=bz|tokens=tz|docs=dz|n=2|seed=sz"
      ⟨"LAVA_V1", 8, "bz", "tz", "dz", 2, "sz"⟩ (by decide)).1,
   (parseMemoContent_requirements.2
      "LAVA_V1|slot=8|blockhash=bz|tokens=tz|docs=dz|n=2|seed=sz"
      ⟨"LAVA_V1", 8, "bz", "tz", "dz", 2, "sz"⟩ (by decide)).2.2.1⟩

/-- Counterexample for C5 as stated: a memo with only the five
`key=value` segments slot, blockhash, tokens, docs, seed (no `n=`) is
accepted, so the parser does not require "at least the six key=value
segments". -/
theorem parseMemoContent_counterexample :
    parseMemoContent "LAVA_V1|slot=5|blockhash=x9|tokens=t9|docs=d9|seed=s9"
      = some ⟨"LAVA_V1", 5, "x9", "t9", "d9", 0, "s9"⟩ := by decide
